import Mathlib

/-!
Verification of the PyAAVF format engine.

This file gives a shallow embedding, in Lean 4, of the algorithmic core of the
PyAAVF repository (`PyAAVF/model.py`, `PyAAVF/parser.py`, `PyAAVF/utils.py`):
the record model with its AC-aware equality, the FILTER/INFO codecs of
`Reader`/`Writer`, the metadata storage policy of `Reader._parse_metainfo`,
the single-pass `AAVF` cursor, and the multi-source ordered merge
`walk_together`.  Python strings are modelled as Lean `String`s compared by
code points, Python ints as `Int`, Python floats as exact rationals (`Rat`;
only plain decimal literals appear in the claims, where that model and IEEE
agree), Python lists as `List`, dicts as insertion-ordered association lists
with overwrite-on-assignment, and raised exceptions as `Option`/`Except`
error results.  Theorems about each claim follow the definitions.
-/

/-! ## Python string primitives -/

/-- Python `str.split(sep)` for a one-character separator, on char lists.
Splitting the empty text yields `[[]]`; `n` separators yield `n+1` chunks. -/
def splitChars (sep : Char) : List Char → List (List Char)
  | [] => [[]]
  | c :: cs =>
    match splitChars sep cs with
    | [] => [[]]
    | h :: t => if c == sep then [] :: h :: t else (c :: h) :: t

/-- Python `str.split(sep)` for a one-character separator. -/
def pySplit (sep : Char) (s : String) : List String :=
  (splitChars sep s.data).map String.mk

/-- Python `str.split(sep, 1)` (`maxsplit = 1`): split at the first separator
only; with no separator present the list has a single element. -/
def pySplit1 (sep : Char) (s : String) : List String :=
  match splitChars sep s.data with
  | [] => [s]
  | h :: t =>
    match t with
    | [] => [String.mk h]
    | _ => [String.mk h, String.mk ((String.intercalate (String.mk [sep]) (t.map String.mk)).data)]

/-- Lexicographic (code-point) comparison of char lists, as Python compares
strings. -/
def charListLt : List Char → List Char → Bool
  | [], [] => false
  | [], _ :: _ => true
  | _ :: _, [] => false
  | a :: as, b :: bs => if a < b then true else if b < a then false else charListLt as bs

/-- Python `a < b` on strings (lexicographic by code point). -/
def strLtB (a b : String) : Bool := charListLt a.data b.data

/-- Python `a <= b` on strings. -/
def strLeB (a b : String) : Bool := !(strLtB b a)

/-- Python `s.startswith(pat)` on char lists. -/
def listStarts : List Char → List Char → Bool
  | [], _ => true
  | _ :: _, [] => false
  | p :: ps, c :: cs => p == c && listStarts ps cs

/-- Python `s.startswith(pat)`. -/
def strStarts (s pat : String) : Bool := listStarts pat.data s.data

theorem splitChars_ne_nil (sep : Char) (l : List Char) : splitChars sep l ≠ [] := by
  induction l with
  | nil => simp [splitChars]
  | cons c cs ih =>
    simp only [splitChars]
    cases h : splitChars sep cs with
    | nil => simp
    | cons h t =>
      by_cases hc : c == sep <;> simp [hc]

theorem pySplit_ne_nil (sep : Char) (s : String) : pySplit sep s ≠ [] := by
  intro h
  exact splitChars_ne_nil sep s.data (by simpa [pySplit] using h)

/-! ## Character-list order facts -/

theorem charListLt_irrefl (l : List Char) : charListLt l l = false := by
  induction l with
  | nil => rfl
  | cons a as ih => simp [charListLt, ih]

theorem charListLt_asymm {a b : List Char} (h : charListLt a b = true) :
    charListLt b a = false := by
  induction a generalizing b with
  | nil =>
    cases b with
    | nil => simp [charListLt] at h
    | cons x xs => simp [charListLt]
  | cons x xs ih =>
    cases b with
    | nil => simp [charListLt] at h
    | cons y ys =>
      simp only [charListLt] at h ⊢
      by_cases hxy : x < y
      · simp only [hxy, if_true] at h ⊢
        have : ¬ y < x := fun h' => absurd hxy (lt_asymm h')
        simp [this, hxy]
      · by_cases hyx : y < x
        · simp [hxy, hyx] at h
        · simp only [hxy, hyx, if_false] at h ⊢
          exact ih h

theorem charListLt_connex {a b : List Char} (hab : charListLt a b = false)
    (hba : charListLt b a = false) : a = b := by
  induction a generalizing b with
  | nil =>
    cases b with
    | nil => rfl
    | cons x xs => simp [charListLt] at hab
  | cons x xs ih =>
    cases b with
    | nil => simp [charListLt] at hba
    | cons y ys =>
      simp only [charListLt] at hab hba
      by_cases hxy : x < y
      · simp [hxy] at hab
      · by_cases hyx : y < x
        · simp [hyx, lt_asymm hyx] at hba
        · simp only [hxy, hyx, if_false] at hab hba
          have hx : x = y := le_antisymm (not_lt.mp hyx) (not_lt.mp hxy)
          rw [hx, ih hab hba]

theorem charListLt_trans {a b c : List Char} (h1 : charListLt a b = true)
    (h2 : charListLt b c = true) : charListLt a c = true := by
  induction a generalizing b c with
  | nil =>
    cases c with
    | nil =>
      cases b with
      | nil => simp [charListLt] at h1
      | cons y ys => simp [charListLt] at h2
    | cons z zs => simp [charListLt]
  | cons x xs ih =>
    cases b with
    | nil => simp [charListLt] at h1
    | cons y ys =>
      cases c with
      | nil => simp [charListLt] at h2
      | cons z zs =>
        simp only [charListLt] at h1 h2 ⊢
        by_cases hxy : x < y <;> by_cases hyz : y < z
        · simp [lt_trans hxy hyz]
        · by_cases hzy : z < y
          · simp [hyz, hzy] at h2
          · have hyeq : y = z := le_antisymm (not_lt.mp hzy) (not_lt.mp hyz)
            subst hyeq
            simp [hxy]
        · by_cases hyx : y < x
          · simp [hxy, hyx] at h1
          · have hxeq : x = y := le_antisymm (not_lt.mp hyx) (not_lt.mp hxy)
            subst hxeq
            simp [hyz]
        · by_cases hyx : y < x
          · simp [hxy, hyx] at h1
          · by_cases hzy : z < y
            · simp [hyz, hzy] at h2
            · have hxeq : x = y := le_antisymm (not_lt.mp hyx) (not_lt.mp hxy)
              have hyeq : y = z := le_antisymm (not_lt.mp hzy) (not_lt.mp hyz)
              have hxz : ¬ x < z := by rw [hxeq, hyeq]; exact lt_irrefl z
              have hzx : ¬ z < x := by rw [hxeq, hyeq]; exact lt_irrefl z
              simp only [hxy, hyx, if_false] at h1
              simp only [hyz, hzy, if_false] at h2
              simp only [hxz, hzx, if_false]
              exact ih h1 h2

theorem strLtB_irrefl (s : String) : strLtB s s = false := charListLt_irrefl s.data

theorem strLtB_asymm {a b : String} (h : strLtB a b = true) : strLtB b a = false :=
  charListLt_asymm h

theorem strLtB_connex {a b : String} (hab : strLtB a b = false)
    (hba : strLtB b a = false) : a = b := by
  have : a.data = b.data := charListLt_connex hab hba
  cases a
  cases b
  exact congrArg String.mk this

theorem strLtB_trans {a b c : String} (h1 : strLtB a b = true)
    (h2 : strLtB b c = true) : strLtB a c = true :=
  charListLt_trans h1 h2

/-! ## Association lists as Python dicts

Python dict assignment `d[k] = v` overwrites the value in place when `k` is
present (keeping its position) and appends otherwise; iteration follows
insertion order. -/

/-- Python `d[k] = v` on an insertion-ordered association list. -/
def dinsert {β : Type} (l : List (String × β)) (k : String) (v : β) :
    List (String × β) :=
  match l with
  | [] => [(k, v)]
  | (k', v') :: t => if k' == k then (k', v) :: t else (k', v') :: dinsert t k v

/-! ## Record model (`model.py`, class `Record`) -/

/-- Atomic decoded INFO value: Python int, float (modelled as an exact
rational) or str. -/
inductive Atom where
  | aInt (i : Int)
  | aFloat (q : Rat)
  | aStr (s : String)
deriving DecidableEq, Repr

/-- Decoded INFO entry value: a Flag boolean, a scalar (after the
cardinality-1 unwrap; `none` is Python `None`), or a list of scalars. -/
inductive IValue where
  | flag (b : Bool)
  | one (a : Option Atom)
  | many (l : List (Option Atom))
deriving DecidableEq, Repr

/-- One data row of an AAVF file (`model.py` class `Record`, which has the
same nine fields as the `_Record` constructed by `parser.py`). `FILTER` is
`none` for the missing-value marker, `some []` for PASS, `some names`
otherwise.  `ALT_FREQ` is a Python float, modelled as an exact rational. -/
structure Record where
  CHROM : String
  GENE : String
  POS : Int
  REF : String
  ALT : List String
  FILTER : Option (List String)
  ALT_FREQ : Rat
  COVERAGE : Int
  INFO : List (String × IValue)
deriving DecidableEq, Repr

namespace Record

/-- Python `"AC" in self.INFO`. -/
def hasAC (r : Record) : Bool := (r.INFO.lookup "AC").isSome

/-- The `Record.__eq__` of `model.py`: records are equal when they agree on
`(CHROM, GENE, POS, REF, ALT)`, refined by `INFO["AC"]` equality when both
carry an `AC` entry; if exactly one carries `AC` the records are unequal. -/
def eqB (self other : Record) : Bool :=
  if self.hasAC && !other.hasAC then false
  else if !self.hasAC && other.hasAC then false
  else
    let equal_rec := self.CHROM == other.CHROM && self.GENE == other.GENE &&
      self.POS == other.POS && self.REF == other.REF && self.ALT == other.ALT
    if self.hasAC && other.hasAC then
      equal_rec && (self.INFO.lookup "AC" == other.INFO.lookup "AC")
    else equal_rec

/-- Python property `Record.is_filtered`: false when `FILTER` is `None` or
empty, true otherwise. -/
def is_filtered (r : Record) : Bool :=
  match r.FILTER with
  | none => false
  | some [] => false
  | some (_ :: _) => true

end Record

/-! ## Reader codec pieces (`parser.py`) -/

namespace Reader

/-- The `Reader._parse_filter` of `parser.py`: `"."` decodes to `None`
(missing), `"PASS"` to the empty list, anything else to the `;`-split list of
filter names. -/
def parse_filter (filt_str : String) : Option (List String) :=
  if filt_str = "." then none
  else if filt_str = "PASS" then some []
  else some (pySplit ';' filt_str)

end Reader

/-! ## Claim C4 — AC-aware record equality -/

/-- Claim C4: two `Record`s agreeing on `(CHROM, GENE, POS, REF, ALT)` are
equal when neither carries an `"AC"` INFO entry; equal when both carry `"AC"`
with equal values regardless of other INFO differences; and unequal when
exactly one of the two carries `"AC"`. -/
theorem record_eq_ac_aware (a b : Record)
    (h1 : a.CHROM = b.CHROM) (h2 : a.GENE = b.GENE) (h3 : a.POS = b.POS)
    (h4 : a.REF = b.REF) (h5 : a.ALT = b.ALT) :
    (a.hasAC = false → b.hasAC = false → Record.eqB a b = true) ∧
    (a.hasAC = true → b.hasAC = true →
      a.INFO.lookup "AC" = b.INFO.lookup "AC" → Record.eqB a b = true) ∧
    (a.hasAC ≠ b.hasAC → Record.eqB a b = false) := by
  refine ⟨?_, ?_, ?_⟩
  · intro ha hb
    simp [Record.eqB, ha, hb, h1, h2, h3, h4, h5]
  · intro ha hb hac
    simp [Record.eqB, ha, hb, h1, h2, h3, h4, h5, hac]
  · intro hne
    cases ha : a.hasAC <;> cases hb : b.hasAC
    · simp [ha, hb] at hne
    · simp [Record.eqB, ha, hb]
    · simp [Record.eqB, ha, hb]
    · simp [ha, hb] at hne

/-- Witness for C4 at concrete records: both carry `AC` with equal values but
differ in other INFO entries, and are equal. -/
theorem record_eq_ac_aware_witness :
    Record.eqB
      { CHROM := "HIV1", GENE := "gag", POS := 10, REF := "A", ALT := ["T"],
        FILTER := some [], ALT_FREQ := 0, COVERAGE := 100,
        INFO := [("AC", IValue.many [some (Atom.aStr "tAa")]), ("X", IValue.flag true)] }
      { CHROM := "HIV1", GENE := "gag", POS := 10, REF := "A", ALT := ["T"],
        FILTER := none, ALT_FREQ := 1, COVERAGE := 7,
        INFO := [("AC", IValue.many [some (Atom.aStr "tAa")])] } = true := by
  exact (record_eq_ac_aware _ _ rfl rfl rfl rfl rfl).2.1 (by decide) (by decide) (by decide)

/-! ## Claim C5 — FILTER decode and `is_filtered` semantics -/

/-- Claim C5: FILTER decoding maps `"."` to `None`, `"PASS"` to the empty
list, and any other string to its `;`-split list; and `is_filtered` is true
exactly when `FILTER` is neither `None` nor empty, so `"."` and `"PASS"` give
false and any other decoded value gives true. -/
theorem filter_semantics :
    (Reader.parse_filter "." = none) ∧
    (Reader.parse_filter "PASS" = some []) ∧
    (∀ s : String, s ≠ "." → s ≠ "PASS" →
      Reader.parse_filter s = some (pySplit ';' s)) ∧
    (∀ r : Record, r.is_filtered = true ↔ (r.FILTER ≠ none ∧ r.FILTER ≠ some [])) ∧
    (∀ s : String, ∀ r : Record, r.FILTER = Reader.parse_filter s →
      s ≠ "." → s ≠ "PASS" → r.is_filtered = true) := by
  refine ⟨rfl, rfl, ?_, ?_, ?_⟩
  · intro s h1 h2
    simp [Reader.parse_filter, h1, h2]
  · intro r
    match h : r.FILTER with
    | none => simp [Record.is_filtered, h]
    | some [] => simp [Record.is_filtered, h]
    | some (x :: t) => simp [Record.is_filtered, h]
  · intro s r hf h1 h2
    have hs : Reader.parse_filter s = some (pySplit ';' s) := by
      simp [Reader.parse_filter, h1, h2]
    obtain ⟨a, t, hat⟩ := List.exists_cons_of_ne_nil (pySplit_ne_nil ';' s)
    rw [hs, hat] at hf
    simp [Record.is_filtered, hf]

/-- Witness for C5 at a concrete FILTER string with two names. -/
theorem filter_semantics_witness :
    ("mq30;sb" ≠ "." ∧ "mq30;sb" ≠ "PASS") ∧
    Reader.parse_filter "mq30;sb" = some (pySplit ';' "mq30;sb") ∧
    Reader.parse_filter "mq30;sb" = some ["mq30", "sb"] := by
  refine ⟨⟨by decide, by decide⟩, filter_semantics.2.2.1 "mq30;sb" (by decide) (by decide), ?_⟩
  decide

/-! ## Genomic keys and the Python tuple order (`utils.py`) -/

/-- Genomic key `(CHROM, GENE, POS)` as built by `walk_together`. -/
abbrev Key := String × String × Int

/-- Key extraction `(r.CHROM, r.GENE, r.POS)` from `walk_together`. -/
def rkey (r : Record) : Key := (r.CHROM, r.GENE, r.POS)

/-- Python `<` on `(chrom, gene, pos)` tuples: lexicographic, strings by code
point, positions as integers. -/
def keyLtB (a b : Key) : Bool :=
  strLtB a.1 b.1 ||
    (a.1 == b.1 && (strLtB a.2.1 b.2.1 || (a.2.1 == b.2.1 && decide (a.2.2 < b.2.2))))

theorem keyLtB_iff {a b : Key} : keyLtB a b = true ↔
    (strLtB a.1 b.1 = true ∨ (a.1 = b.1 ∧
      (strLtB a.2.1 b.2.1 = true ∨ (a.2.1 = b.2.1 ∧ a.2.2 < b.2.2)))) := by
  simp [keyLtB, Bool.or_eq_true, Bool.and_eq_true, decide_eq_true_eq, beq_iff_eq]

theorem keyLtB_irrefl (a : Key) : keyLtB a a = false := by
  simp [keyLtB, strLtB_irrefl]

theorem keyLtB_trans {a b c : Key} (h1 : keyLtB a b = true)
    (h2 : keyLtB b c = true) : keyLtB a c = true := by
  rw [keyLtB_iff] at h1 h2 ⊢
  rcases h1 with h1 | ⟨he1, h1⟩
  · rcases h2 with h2 | ⟨he2, h2⟩
    · exact Or.inl (strLtB_trans h1 h2)
    · exact Or.inl (he2 ▸ h1)
  · rcases h2 with h2 | ⟨he2, h2⟩
    · exact Or.inl (he1 ▸ h2)
    · refine Or.inr ⟨he1.trans he2, ?_⟩
      rcases h1 with h1 | ⟨hg1, h1⟩
      · rcases h2 with h2 | ⟨hg2, h2⟩
        · exact Or.inl (strLtB_trans h1 h2)
        · exact Or.inl (hg2 ▸ h1)
      · rcases h2 with h2 | ⟨hg2, h2⟩
        · exact Or.inl (hg1 ▸ h2)
        · exact Or.inr ⟨hg1.trans hg2, h1.trans h2⟩

theorem keyLtB_connex {a b : Key} (hab : keyLtB a b = false)
    (hba : keyLtB b a = false) : a = b := by
  obtain ⟨a1, a2, a3⟩ := a
  obtain ⟨b1, b2, b3⟩ := b
  have hab' : ¬ (keyLtB (a1, a2, a3) (b1, b2, b3) = true) := by simp [hab]
  have hba' : ¬ (keyLtB (b1, b2, b3) (a1, a2, a3) = true) := by simp [hba]
  rw [keyLtB_iff] at hab' hba'
  push_neg at hab' hba'
  have h1 : a1 = b1 :=
    strLtB_connex (Bool.not_eq_true _ ▸ hab'.1) (Bool.not_eq_true _ ▸ hba'.1)
  have hab2 := hab'.2 h1
  have hba2 := hba'.2 h1.symm
  have h2 : a2 = b2 :=
    strLtB_connex (Bool.not_eq_true _ ▸ hab2.1) (Bool.not_eq_true _ ▸ hba2.1)
  have h3 : a3 = b3 := le_antisymm (hba2.2 h2.symm) (hab2.2 h2)
  simp [h1, h2, h3]

theorem keyLtB_asymm {a b : Key} (h : keyLtB a b = true) : keyLtB b a = false := by
  by_contra hcon
  have hba : keyLtB b a = true := Bool.not_eq_false _ ▸ hcon
  have := keyLtB_trans h hba
  rw [keyLtB_irrefl] at this
  exact Bool.false_ne_true this

theorem keyLtB_gt_of_ne {a b : Key} (hab : keyLtB a b = false) (hne : a ≠ b) :
    keyLtB b a = true := by
  by_contra hcon
  exact hne (keyLtB_connex hab (Bool.not_eq_true _ ▸ hcon))

theorem keyLtB_chrom_lt {p k : Key} (h : keyLtB p k = true) (hne : p.1 ≠ k.1) :
    strLtB p.1 k.1 = true := by
  rw [keyLtB_iff] at h
  rcases h with h | ⟨he, _⟩
  · exact h
  · exact absurd he hne

theorem keyLtB_of_chrom_lt {a b : Key} (h : strLtB a.1 b.1 = true) :
    keyLtB a b = true := keyLtB_iff.mpr (Or.inl h)

/-- Python `min` over a nonempty list of keys, scanning left to right with
strict `<` (ties keep the earlier element; equal keys are identical here). -/
def pyMin (k : Key) : List Key → Key
  | [] => k
  | x :: t => pyMin (if keyLtB x k then x else k) t

theorem pyMin_mem (k : Key) (ks : List Key) : pyMin k ks ∈ k :: ks := by
  induction ks generalizing k with
  | nil => simp [pyMin]
  | cons a t ih =>
    simp only [pyMin]
    by_cases h : keyLtB a k = true
    · simp only [h, if_true]
      have := ih a
      simp only [List.mem_cons] at this ⊢
      tauto
    · simp only [h, if_false]
      have := ih k
      simp only [List.mem_cons] at this ⊢
      tauto

theorem pyMin_not_lt (k : Key) (ks : List Key) :
    ∀ x ∈ k :: ks, keyLtB x (pyMin k ks) = false := by
  induction ks generalizing k with
  | nil =>
    intro x hx
    simp only [List.mem_cons, List.not_mem_nil, or_false] at hx
    subst hx
    simp [pyMin, keyLtB_irrefl]
  | cons a t ih =>
    intro x hx
    have hmem : x = k ∨ x = a ∨ x ∈ t := by simpa [List.mem_cons] using hx
    simp only [pyMin]
    by_cases h : keyLtB a k = true
    · simp only [h, if_true]
      rcases hmem with h1 | h1 | h1
      · by_contra hcon
        have hlt : keyLtB x (pyMin a t) = true := Bool.not_eq_false _ ▸ hcon
        have hc2 := keyLtB_trans h (h1 ▸ hlt)
        rw [ih a a (List.mem_cons_self a t)] at hc2
        exact Bool.false_ne_true hc2
      · rw [h1]
        exact ih a a (List.mem_cons_self a t)
      · exact ih a x (List.mem_cons_of_mem a h1)
    · simp only [h, if_false]
      have hxk : keyLtB a k = false := Bool.eq_false_iff.mpr h
      rcases hmem with h1 | h1 | h1
      · rw [h1]
        exact ih k k (List.mem_cons_self k t)
      · by_contra hcon
        have hlt : keyLtB x (pyMin k t) = true := Bool.not_eq_false _ ▸ hcon
        by_cases hq : a = k
        · rw [h1, hq] at hlt
          rw [ih k k (List.mem_cons_self k t)] at hlt
          exact Bool.false_ne_true hlt
        · have hkx : keyLtB k a = true := keyLtB_gt_of_ne hxk hq
          have hc2 := keyLtB_trans hkx (h1 ▸ hlt)
          rw [ih k k (List.mem_cons_self k t)] at hc2
          exact Bool.false_ne_true hc2
      · exact ih k x (List.mem_cons_of_mem k h1)

/-! ## The `walk_together` state machine (`utils.py`)

One source is a pair `(cursor, remaining)`: the record currently held in
`nexts[i]` (`none` once the reader is exhausted) plus the records the reader
has not yet produced.  `walk_together` pulls one record from every reader,
then repeatedly selects a key, yields an N-wide row and advances the matching
cursors.  The previously emitted key starts out as the sentinel `(None,)`,
modelled by `none` (no string chrom compares equal to Python `None`). -/

/-- One reader's state inside `walk_together`: current `nexts[i]` entry and
the not-yet-pulled records. -/
abbrev Src := Option Record × List Record

/-- Records still to be produced by a source, current cursor included. -/
def srcList (s : Src) : List Record :=
  (match s.1 with | none => [] | some r => [r]) ++ s.2

/-- Keys of the non-exhausted cursors, in index order (the values of
`next_index_to_key` in `walk_together`). -/
def curKeys (srcs : List Src) : List Key :=
  srcs.filterMap (fun s => s.1.map rkey)

/-- Python `key[0] == min_k[0]`: does a candidate key share the chrom of the
previously emitted key?  The initial sentinel `(None,)` matches no string. -/
def prevChromMatch (min_k : Option Key) (k : Key) : Bool :=
  match min_k with
  | none => false
  | some p => k.1 == p.1

/-- Key selection of one `walk_together` iteration: restrict to the
candidates sharing the previous key's chrom when any exist (finish the
current contig), otherwise take all candidates; then Python `min`. -/
def selectKey (min_k : Option Key) (ks : List Key) : Option Key :=
  match ks with
  | [] => none
  | k :: t =>
    match (k :: t).filter (prevChromMatch min_k) with
    | [] => some (pyMin k t)
    | s :: ss => some (pyMin s ss)

/-- The row yielded for the selected key: `nexts[i]` where its key equals
`min_k`, else `None`. -/
def rowOf (mk : Key) (srcs : List Src) : List (Option Record) :=
  srcs.map (fun s =>
    match s.1 with
    | some r => if rkey r == mk then some r else none
    | none => none)

/-- Advance one cursor: when its key was emitted, pull the next record
(`None` when the reader is exhausted); otherwise leave it alone. -/
def advanceOne (mk : Key) (s : Src) : Src :=
  match s.1 with
  | some r => if rkey r == mk then (s.2.head?, s.2.tail) else s
  | none => s

/-- Advance every cursor whose key was emitted: `nexts[i] = next(readers[i])`
(`None` when the reader is exhausted). -/
def advance (mk : Key) (srcs : List Src) : List Src :=
  srcs.map (advanceOne mk)

/-- One iteration of the `while` loop of `walk_together`: `none` when every
cursor is exhausted (loop exit), otherwise the yielded row, the selected key
and the advanced state. -/
def wtStep (min_k : Option Key) (srcs : List Src) :
    Option (List (Option Record) × Key × List Src) :=
  match selectKey min_k (curKeys srcs) with
  | none => none
  | some mk => some (rowOf mk srcs, mk, advance mk srcs)

/-- Number of records a source will still produce. -/
def srcCount (s : Src) : Nat :=
  (match s.1 with | none => 0 | some _ => 1) + s.2.length

/-- Total number of records not yet emitted. -/
def totalCount (srcs : List Src) : Nat := (srcs.map srcCount).sum

/-- The `walk_together` loop, run to completion; the fuel argument is a bound
on the number of iterations, each of which emits at least one record.  Each
element pairs the yielded row with the key selected for it. -/
def wtAux : Nat → Option Key → List Src → List (List (Option Record) × Key)
  | 0, _, _ => []
  | fuel + 1, min_k, srcs =>
    match wtStep min_k srcs with
    | none => []
    | some (row, mk, srcs') => (row, mk) :: wtAux fuel (some mk) srcs'

/-- Initial pull of one record from every reader. -/
def initSrcs (readers : List (List Record)) : List Src :=
  readers.map (fun l => (l.head?, l.tail))

/-- Full run of `walk_together`, rows paired with their selected keys. -/
def wtRun (readers : List (List Record)) : List (List (Option Record) × Key) :=
  wtAux (totalCount (initSrcs readers)) none (initSrcs readers)

/-- The `walk_together` of `utils.py`: the sequence of yielded rows. -/
def walk_together (readers : List (List Record)) : List (List (Option Record)) :=
  (wtRun readers).map Prod.fst

theorem selectKey_cons (p : Option Key) (k : Key) (t : List Key) :
    selectKey p (k :: t) =
      match (k :: t).filter (prevChromMatch p) with
      | [] => some (pyMin k t)
      | s :: ss => some (pyMin s ss) := rfl

theorem selectKey_eq_none {p : Option Key} {ks : List Key} :
    selectKey p ks = none ↔ ks = [] := by
  cases ks with
  | nil => simp [selectKey]
  | cons k t =>
    rw [selectKey_cons]
    cases h : (k :: t).filter (prevChromMatch p) <;> simp

theorem selectKey_some_mem {p : Option Key} {ks : List Key} {mk : Key}
    (h : selectKey p ks = some mk) : mk ∈ ks := by
  cases ks with
  | nil => simp [selectKey] at h
  | cons k t =>
    rw [selectKey_cons] at h
    cases hf : (k :: t).filter (prevChromMatch p) with
    | nil =>
      rw [hf] at h
      injection h with h
      exact h ▸ pyMin_mem k t
    | cons s ss =>
      rw [hf] at h
      injection h with h
      have hmem : mk ∈ s :: ss := h ▸ pyMin_mem s ss
      rw [← hf] at hmem
      exact List.mem_of_mem_filter hmem

theorem selectKey_spec {p : Option Key} {ks : List Key} {mk : Key}
    (h : selectKey p ks = some mk) :
    (ks.filter (prevChromMatch p) ≠ [] →
      mk ∈ ks.filter (prevChromMatch p) ∧
      ∀ k ∈ ks.filter (prevChromMatch p), keyLtB k mk = false) ∧
    (ks.filter (prevChromMatch p) = [] →
      mk ∈ ks ∧ ∀ k ∈ ks, keyLtB k mk = false) := by
  cases ks with
  | nil => simp [selectKey] at h
  | cons k t =>
    rw [selectKey_cons] at h
    cases hf : (k :: t).filter (prevChromMatch p) with
    | nil =>
      rw [hf] at h
      injection h with h
      exact ⟨fun hne => absurd rfl hne,
        fun _ => ⟨h ▸ pyMin_mem k t, fun x hx => h ▸ pyMin_not_lt k t x hx⟩⟩
    | cons s ss =>
      rw [hf] at h
      injection h with h
      exact ⟨fun _ => ⟨h ▸ pyMin_mem s ss, fun x hx => h ▸ pyMin_not_lt s ss x hx⟩,
        fun heq => absurd heq (List.cons_ne_nil s ss)⟩

theorem wtStep_eq {p : Option Key} {srcs srcs' : List Src}
    {row : List (Option Record)} {mk : Key}
    (h : wtStep p srcs = some (row, mk, srcs')) :
    selectKey p (curKeys srcs) = some mk ∧ row = rowOf mk srcs ∧
      srcs' = advance mk srcs := by
  unfold wtStep at h
  cases hs : selectKey p (curKeys srcs) with
  | none => rw [hs] at h; cases h
  | some m =>
    rw [hs] at h
    simp only [Option.some.injEq, Prod.mk.injEq] at h
    obtain ⟨h1, h2, h3⟩ := h
    subst h2
    exact ⟨rfl, h1.symm, h3.symm⟩

theorem prevChromMatch_none (ks : List Key) :
    ks.filter (prevChromMatch none) = [] := by
  induction ks with
  | nil => rfl
  | cons k t ih => simp [List.filter_cons, prevChromMatch, ih]

/-! ## Claim C2 — contig-completion key selection -/

/-- Record `(chr1, g, 5)` of source A in the contig-completion scenario. -/
def recA1 : Record :=
  { CHROM := "chr1", GENE := "g", POS := 5, REF := "A", ALT := ["T"],
    FILTER := some [], ALT_FREQ := 0, COVERAGE := 0, INFO := [] }

/-- Record `(chr2, g, 1)` of source A in the contig-completion scenario. -/
def recA2 : Record :=
  { CHROM := "chr2", GENE := "g", POS := 1, REF := "A", ALT := ["T"],
    FILTER := some [], ALT_FREQ := 0, COVERAGE := 0, INFO := [] }

/-- Record `(chr1, g, 9)` of source B in the contig-completion scenario. -/
def recB1 : Record :=
  { CHROM := "chr1", GENE := "g", POS := 9, REF := "A", ALT := ["T"],
    FILTER := some [], ALT_FREQ := 0, COVERAGE := 0, INFO := [] }

/-- Claim C2: at each `walk_together` step, when some candidate key shares the
chrom of the previously emitted key, the emitted key is the lexicographic
minimum of those same-chrom candidates; otherwise (and on the very first
step, whose sentinel matches no chrom) it is the minimum over all candidate
keys.  For sources `A = [(chr1,5), (chr2,1)]` and `B = [(chr1,9)]` the
emitted order is `(chr1,5) → [A, None]`, `(chr1,9) → [None, B]`,
`(chr2,1) → [A, None]`. -/
theorem walk_selection_rule :
    (∀ (min_k : Option Key) (srcs : List Src) (row : List (Option Record))
      (mk : Key) (srcs' : List Src),
      wtStep min_k srcs = some (row, mk, srcs') →
      ((curKeys srcs).filter (prevChromMatch min_k) ≠ [] →
        mk ∈ (curKeys srcs).filter (prevChromMatch min_k) ∧
        ∀ k ∈ (curKeys srcs).filter (prevChromMatch min_k), keyLtB k mk = false) ∧
      ((curKeys srcs).filter (prevChromMatch min_k) = [] →
        mk ∈ curKeys srcs ∧ ∀ k ∈ curKeys srcs, keyLtB k mk = false)) ∧
    (∀ (srcs : List Src) (row : List (Option Record)) (mk : Key) (srcs' : List Src),
      wtStep none srcs = some (row, mk, srcs') →
      mk ∈ curKeys srcs ∧ ∀ k ∈ curKeys srcs, keyLtB k mk = false) ∧
    walk_together [[recA1, recA2], [recB1]] =
      [[some recA1, none], [none, some recB1], [some recA2, none]] := by
  refine ⟨?_, ?_, by decide⟩
  · intro min_k srcs row mk srcs' h
    exact selectKey_spec (wtStep_eq h).1
  · intro srcs row mk srcs' h
    exact (selectKey_spec (wtStep_eq h).1).2 (prevChromMatch_none _)

/-- Witness for C2: the second step of the scenario restricts the candidates
to the `chr1` keys and selects `(chr1, g, 9)` although `(chr2, g, 1)` is also
available. -/
theorem walk_selection_rule_witness :
    (wtStep (some (rkey recA1)) [(some recA2, []), (some recB1, [])] =
      some ([none, some recB1], rkey recB1, [(some recA2, []), (none, [])])) ∧
    ((curKeys [(some recA2, []), (some recB1, [])]).filter
        (prevChromMatch (some (rkey recA1))) ≠ [] ∧
      rkey recB1 ∈ (curKeys [(some recA2, []), (some recB1, [])]).filter
        (prevChromMatch (some (rkey recA1)))) := by
  refine ⟨rfl, by decide, ?_⟩
  exact ((walk_selection_rule.1 (some (rkey recA1)) [(some recA2, []), (some recB1, [])]
    [none, some recB1] (rkey recB1) [(some recA2, []), (none, [])] rfl).1
    (by decide)).1

/-! ## Claim C10 — row shape invariants of `walk_together` -/

theorem advance_length (mk : Key) (srcs : List Src) :
    (advance mk srcs).length = srcs.length := by
  simp [advance]

theorem rowOf_length (mk : Key) (srcs : List Src) :
    (rowOf mk srcs).length = srcs.length := by
  simp [rowOf]

theorem mem_curKeys {srcs : List Src} {k : Key} :
    k ∈ curKeys srcs ↔ ∃ s ∈ srcs, ∃ r : Record, s.1 = some r ∧ rkey r = k := by
  simp [curKeys, List.mem_filterMap, Option.map_eq_some']

theorem rowOf_some_rkey {mk : Key} {srcs : List Src} {r : Record}
    (h : some r ∈ rowOf mk srcs) : rkey r = mk := by
  simp only [rowOf, List.mem_map] at h
  obtain ⟨s, _, heq⟩ := h
  cases hc : s.1 with
  | none => rw [hc] at heq; cases heq
  | some r' =>
    rw [hc] at heq
    by_cases hk : rkey r' == mk
    · simp only [hk, if_true, Option.some.injEq] at heq
      rw [← heq]
      exact beq_iff_eq.mp hk
    · simp [hk] at heq

theorem rowOf_exists_some {mk : Key} {srcs : List Src} (h : mk ∈ curKeys srcs) :
    ∃ r : Record, some r ∈ rowOf mk srcs := by
  obtain ⟨s, hs, r, hsr, hk⟩ := mem_curKeys.mp h
  refine ⟨r, ?_⟩
  have heval : (fun s : Src =>
      match s.1 with
      | some r => if rkey r == mk then some r else none
      | none => none) s = some r := by
    simp only [hsr]
    simp [hk]
  exact heval ▸ List.mem_map_of_mem _ hs

theorem wtAux_row_props (fuel : Nat) :
    ∀ (p : Option Key) (srcs : List Src) (row : List (Option Record)) (mk : Key),
    (row, mk) ∈ wtAux fuel p srcs →
    row.length = srcs.length ∧ (∃ r : Record, some r ∈ row) ∧
      ∀ r : Record, some r ∈ row → rkey r = mk := by
  induction fuel with
  | zero => intro p srcs row mk h; simp [wtAux] at h
  | succ n ih =>
    intro p srcs row mk h
    simp only [wtAux] at h
    cases hs : wtStep p srcs with
    | none => rw [hs] at h; simp at h
    | some triple =>
      obtain ⟨row0, mk0, srcs0⟩ := triple
      rw [hs] at h
      obtain ⟨hsel, hrow, hadv⟩ := wtStep_eq hs
      rcases List.mem_cons.mp h with heq | htail
      · injection heq with h1 h2
        subst h1
        subst h2
        refine ⟨by rw [hrow]; exact rowOf_length _ _, ?_, ?_⟩
        · exact hrow ▸ rowOf_exists_some (selectKey_some_mem hsel)
        · intro r hr
          exact rowOf_some_rkey (hrow ▸ hr)
      · have hprops := ih (some mk0) srcs0 row mk htail
        refine ⟨?_, hprops.2⟩
        rw [hprops.1, hadv, advance_length]

/-- Claim C10: every row yielded by `walk_together` over N readers has
exactly N entries, at least one of them non-`None`, and all non-`None`
entries carry the single key selected for that step; no all-`None` row is
ever yielded. -/
theorem walk_row_invariants (readers : List (List Record)) (row : List (Option Record))
    (h : row ∈ walk_together readers) :
    row.length = readers.length ∧ (∃ r : Record, some r ∈ row) ∧
      ∃ k : Key, ∀ r : Record, some r ∈ row → rkey r = k := by
  simp only [walk_together, List.mem_map] at h
  obtain ⟨⟨row0, mk⟩, hmem, hfst⟩ := h
  have hprops := wtAux_row_props _ _ _ _ _ hmem
  have hlen : (initSrcs readers).length = readers.length := by simp [initSrcs]
  simp only at hfst
  subst hfst
  exact ⟨by rw [hprops.1, hlen], hprops.2.1, ⟨mk, hprops.2.2⟩⟩

/-- Witness for C10 at the first row of the contig-completion scenario. -/
theorem walk_row_invariants_witness :
    ([some recA1, none] ∈ walk_together [[recA1, recA2], [recB1]]) ∧
    ([some recA1, none].length = [[recA1, recA2], [recB1]].length ∧
      (∃ r : Record, some r ∈ [some recA1, none]) ∧
      ∃ k : Key, ∀ r : Record, some r ∈ [some recA1, none] → rkey r = k) :=
  ⟨by decide, walk_row_invariants [[recA1, recA2], [recB1]] [some recA1, none] (by decide)⟩

/-! ## Header schema types (`parser.py` namedtuples, `model.py` classes) -/

/-- The `Info` namedtuple of `parser.py`: one INFO schema entry
`(id, num, type, desc, source, version)`; `num` is `None` for `Number=.`
or a missing `Number`. -/
structure InfoDef where
  id : String
  num : Option Int
  type : String
  desc : String
  source : Option String
  version : Option String
deriving DecidableEq, Repr

/-- The `Filter` namedtuple of `parser.py`: one FILTER schema entry. -/
structure FilterDef where
  id : String
  desc : String
deriving DecidableEq, Repr

/-- One metadata value as parsed by `read_meta`: a plain string, or the
ordered `key=value` submap produced by `read_meta_hash` for `##key=<...>`
lines. -/
inductive MetaScalar where
  | mstr (s : String)
  | mhash (h : List (String × String))
deriving DecidableEq, Repr

/-- One stored metadata entry of `Reader.metadata`: a single scalar for
`SINGULAR_METADATA` keys, an ordered list of values for every other key. -/
inductive MetaVal where
  | single (v : MetaScalar)
  | multi (vs : List MetaScalar)
deriving DecidableEq, Repr

/-! ## The AAVF container (`model.py`, class `AAVF`) -/

/-- The `AAVF` container: header state, record list, the `record_len`
captured at construction time, and the cursor `index` that starts at `-1`. -/
structure AAVF where
  metadata : List (String × MetaVal)
  infos : List (String × InfoDef)
  filters : List (String × FilterDef)
  column_headers : List String
  records : List Record
  record_len : Int
  index : Int

/-- The `AAVF.__init__`: store the records, capture
`record_len = len(records)`, set `index = -1`. -/
def AAVF.init (md : List (String × MetaVal)) (infs : List (String × InfoDef))
    (fls : List (String × FilterDef)) (ch : List String) (records : List Record) :
    AAVF :=
  { metadata := md, infos := infs, filters := fls, column_headers := ch,
    records := records, record_len := (records.length : Int), index := -1 }

/-- The `AAVF.__next__`: raise StopIteration (outer `none`) when
`index == record_len - 1`, else increment the cursor and return
`records[index]` (the inner option models list indexing, which never misses
on states reached from `init`).  The state is unchanged on StopIteration,
so later calls — and a second `for` loop over the same object, since
`__iter__` returns `self` — keep raising StopIteration. -/
def AAVF.nextRec (a : AAVF) : Option (Option Record × AAVF) :=
  if a.index = a.record_len - 1 then none
  else
    let i := a.index + 1
    some (a.records.get? i.toNat, { a with index := i })

/-- Call `__next__` up to `n` times, collecting the yields in order and
stopping at the first StopIteration; also returns the final cursor state. -/
def AAVF.pullN (a : AAVF) : Nat → List (Option Record) × AAVF
  | 0 => ([], a)
  | n + 1 =>
    match a.nextRec with
    | none => ([], a)
    | some (r, a') =>
      let p := a'.pullN n
      (r :: p.1, p.2)

/-! ## Metadata storage policy (`parser.py`, `Reader._parse_metainfo`) -/

/-- The `SINGULAR_METADATA` constant of `parser.py`. -/
def SINGULAR_METADATA : List String := ["fileformat", "fileDate", "reference"]

/-- One metadata storage action of `Reader._parse_metainfo`: a key in
`SINGULAR_METADATA` is assigned directly (overwriting), any other key
appends to a list created at its first occurrence.  The `single` arm of the
match is unreachable: which branch runs depends only on the key, so a
non-singular key always holds a `multi` value (Python would raise there). -/
def metaStore (md : List (String × MetaVal)) (key : String) (val : MetaScalar) :
    List (String × MetaVal) :=
  if key ∈ SINGULAR_METADATA then
    dinsert md key (MetaVal.single val)
  else
    match md.lookup key with
    | none => dinsert md key (MetaVal.multi [val])
    | some (MetaVal.multi vs) => dinsert md key (MetaVal.multi (vs ++ [val]))
    | some (MetaVal.single v) => dinsert md key (MetaVal.single v)

/-- The metadata mapping produced by feeding a sequence of parsed
`(key, value)` metadata lines through `Reader._parse_metainfo`'s storage
branch, starting from the empty mapping. -/
def metaFold (pairs : List (String × MetaScalar)) : List (String × MetaVal) :=
  pairs.foldl (fun md kv => metaStore md kv.1 kv.2) []

/-! ## Header line parsers (`parser.py`, `_aavf_metadata_parser`) -/

/-- Drop an expected literal off the front of a char list; `none` when the
text does not start with it. -/
def dropLit : List Char → List Char → Option (List Char)
  | [], s => some s
  | _ :: _, [] => none
  | p :: ps, c :: cs => if p == c then dropLit ps cs else none

/-- Scan for the two-character pattern `=<` anywhere in the list. -/
def eqAngleScan : List Char → Bool
  | [] => false
  | a :: rest =>
    match rest with
    | [] => false
    | b :: _ => (a == '=' && b == '<') || eqAngleScan rest

/-- Test of `re.match("##.+=<", s)` in `read_meta`: the string starts with
`##` and, at least one character later, `=<` occurs. -/
def hashPatternB (s : String) : Bool :=
  strStarts s "##" &&
    (match s.data.drop 2 with
     | [] => false
     | _ :: rest => eqAngleScan rest)

/-- Key accumulation for the meta pattern `##(.+?)=(.+)`: find the first `=`
(with the key nonempty, ensured by the caller seeding one char) followed by
a nonempty value. -/
def metaKeyValGo (keyAcc : List Char) : List Char → Option (String × String)
  | [] => none
  | c :: rest =>
    if c == '=' then
      match rest with
      | [] => none
      | _ => some (String.mk keyAcc, String.mk rest)
    else metaKeyValGo (keyAcc ++ [c]) rest

/-- Test of `re.match('##(.+?)=(.+)', s)`: literal `##`, a nonempty
(non-greedy) key, `=`, a nonempty value. -/
def metaPatternMatch (s : String) : Option (String × String) :=
  if strStarts s "##" then
    match s.data.drop 2 with
    | [] => none
    | c :: rest => metaKeyValGo [c] rest
  else none

/-- Python `s.strip('[<>]')`: remove the characters `[`, `<`, `>`, `]` from
both ends. -/
def stripAngles (s : String) : String :=
  let set : List Char := ['[', '<', '>', ']']
  String.mk (((s.data.dropWhile (set.contains ·)).reverse.dropWhile (set.contains ·)).reverse)

/-- One character step of the `read_meta_hash` state machine (states:
0 = reading key, 1 = reading value, 2 = reading quoted value); the
accumulator is `(state, key, value, parsed submap)`. -/
def metaHashStep (st : Nat × List Char × List Char × List (String × String))
    (c : Char) : Nat × List Char × List Char × List (String × String) :=
  let (state, k, v, val) := st
  if state = 0 then
    if c == '=' then (1, k, v, val) else (0, k ++ [c], v, val)
  else if state = 1 then
    if v = [] ∧ c == '"' then (2, k, v ++ [c], val)
    else if c == ',' then (0, [], [], dinsert val (String.mk k) (String.mk v))
    else (1, k, v ++ [c], val)
  else
    if c == '"' then (1, k, v ++ [c], val) else (2, k, v ++ [c], val)

/-- The `read_meta_hash` of `parser.py`: split at the first `=`, strip hash
marks off the key, run the quoted-value-aware state machine over the
bracket-stripped remainder, and flush the last pending pair. -/
def read_meta_hash (meta_string : String) : String × List (String × String) :=
  let items := pySplit1 '=' meta_string
  let key := String.mk ((items.headD "").data.dropWhile (· == '#'))
  let body := stripAngles (items.getD 1 "")
  let fin := body.data.foldl metaHashStep (0, [], [], [])
  let val := if fin.2.1 ≠ [] then dinsert fin.2.2.2 (String.mk fin.2.1) (String.mk fin.2.2.1)
             else fin.2.2.2
  (key, val)

/-- The `read_meta` of `parser.py`: `##key=<...>` lines go through
`read_meta_hash`; `##key=value` lines split into key and raw value; anything
else degrades to `(line with hashes stripped, "none")`. -/
def read_meta (meta_string : String) : String × MetaScalar :=
  if hashPatternB meta_string then
    let kv := read_meta_hash meta_string
    (kv.1, MetaScalar.mhash kv.2)
  else
    match metaPatternMatch meta_string with
    | some kv => (kv.1, MetaScalar.mstr kv.2)
    | none => (String.mk (meta_string.data.dropWhile (· == '#')), MetaScalar.mstr "none")

/-- Parse the `Number=` group `(-?\d+|\.)?` of an INFO line together with
`aavf_field_count`: `.` and a missing number give `none` (unknown count), a
decimal integer gives its value, anything else fails the regex. -/
def parseInfoNum (seg : List Char) : Option (Option Int) :=
  if seg = [] then some none
  else if seg = ['.'] then some none
  else
    let (sign, digits) := if seg.headD ' ' == '-' then ((-1 : Int), seg.tail) else (1, seg)
    if digits ≠ [] ∧ digits.all (·.isDigit) then
      some (some (sign * (String.mk digits).toNat!))
    else none

/-- Take the chars before the next `,` (the `[^,]+`-then-`,` step of the
INFO/FILTER regexes); fails when the segment is empty or no `,` follows. -/
def takeToComma (s : List Char) : Option (List Char × List Char) :=
  let seg := s.takeWhile (· ≠ ',')
  let rest := s.dropWhile (· ≠ ',')
  match rest with
  | ',' :: rest' => if seg = [] then none else some (seg, rest')
  | _ => none

/-- The `read_info` of `parser.py`: match the INFO header-line regex and
build the `(id, Info)` pair; `none` models the `SyntaxError` raised on a
mismatch.  The optional `Source`/`Version` tail is parsed left to right
without the regex engine's backtracking (quote-free `Version` values stop at
`"` or `>`), which coincides with the regex on well-formed header lines. -/
def read_info (info_string : String) : Option (String × InfoDef) := do
  let s0 ← dropLit "##INFO=<ID=".data info_string.data
  let (idSeg, s1) ← takeToComma s0
  let s1 := s1.dropWhile (·.isWhitespace)
  let s2 ← dropLit "Number=".data s1
  let numSeg := s2.takeWhile (· ≠ ',')
  let num ← parseInfoNum numSeg
  let s3 ← match s2.dropWhile (· ≠ ',') with
    | ',' :: r => some (r.dropWhile (·.isWhitespace))
    | _ => none
  let s4 ← dropLit "Type=".data s3
  let typeSeg := s4.takeWhile (· ≠ ',')
  let tp ← if typeSeg = "Integer".data ∨ typeSeg = "Float".data ∨ typeSeg = "Flag".data ∨
      typeSeg = "Character".data ∨ typeSeg = "String".data then some (String.mk typeSeg)
    else none
  let s5 ← match s4.dropWhile (· ≠ ',') with
    | ',' :: r => some (r.dropWhile (·.isWhitespace))
    | _ => none
  let s6 ← dropLit "Description=\"".data s5
  let descSeg := s6.takeWhile (· ≠ '"')
  let s7 ← dropLit ("\"".data) (s6.dropWhile (· ≠ '"'))
  let (src, s8) :=
    match (do
      let t1 ← dropLit ",".data s7
      let t2 ← dropLit "Source=\"".data (t1.dropWhile (·.isWhitespace))
      let seg := t2.takeWhile (· ≠ '"')
      let t3 ← dropLit "\"".data (t2.dropWhile (· ≠ '"'))
      pure (String.mk seg, t3) : Option (String × List Char)) with
    | some (v, rest) => (some v, rest)
    | none => (none, s7)
  let (ver, s9) :=
    match (do
      let t1 ← dropLit ",".data s8
      let t2 ← dropLit "Version=".data (t1.dropWhile (·.isWhitespace))
      let t2' := if t2.headD ' ' == '"' then t2.tail else t2
      let seg := t2'.takeWhile (fun c => c ≠ '"' ∧ c ≠ '>')
      let t3 := t2'.dropWhile (fun c => c ≠ '"' ∧ c ≠ '>')
      let t3' := if t3.headD ' ' == '"' then t3.tail else t3
      pure (String.mk seg, t3') : Option (String × List Char)) with
    | some (v, rest) => (some v, rest)
    | none => (none, s8)
  let _ ← dropLit ">".data s9
  pure (String.mk idSeg,
    { id := String.mk idSeg, num := num, type := tp, desc := String.mk descSeg,
      source := src, version := ver })

/-- The `read_filter` of `parser.py`: match the FILTER header-line regex,
`none` modelling the `SyntaxError` on a mismatch. -/
def read_filter (filter_string : String) : Option (String × FilterDef) := do
  let s0 ← dropLit "##FILTER=<ID=".data filter_string.data
  let (idSeg, s1) ← takeToComma s0
  let s1 := s1.dropWhile (·.isWhitespace)
  let s2 ← dropLit "Description=\"".data s1
  let descSeg := s2.takeWhile (· ≠ '"')
  let s3 ← dropLit "\"".data (s2.dropWhile (· ≠ '"'))
  let _ ← dropLit ">".data s3
  pure (String.mk idSeg, { id := String.mk idSeg, desc := String.mk descSeg })

/-! ## Header parsing loop (`Reader._parse_metainfo`) -/

/-- Error outcomes of header parsing: the bare `StopIteration` escaping from
`next(self.reader)` when the stream runs out inside the `##` loop, or the
`SyntaxError` raised by `read_info`/`read_filter`. -/
inductive HdrErr where
  | stopIteration
  | syntaxError (line : String)
deriving DecidableEq, Repr

/-- Parsed header state of a `Reader`. -/
structure HeaderState where
  metadata : List (String × MetaVal)
  infos : List (String × InfoDef)
  filters : List (String × FilterDef)
  column_headers : List String
deriving Repr

/-- The row separator in the default (lenient) mode: the regex `\t| +`
splits on every tab and on every maximal run of spaces. -/
def rowSplitChars : List Char → List (List Char)
  | [] => [[]]
  | c :: cs =>
    let r := rowSplitChars cs
    if c == '\t' then [] :: r
    else if c == ' ' then
      match cs with
      | ' ' :: _ => r
      | _ => [] :: r
    else
      match r with
      | [] => [[c]]
      | h :: t => (c :: h) :: t

/-- Split a row on the default separator `\t| +`. -/
def rowSplit (s : String) : List String :=
  (rowSplitChars s.data).map String.mk

/-- The header state built when the loop of `_parse_metainfo` stops: the
accumulated mappings plus the column headers, taken as the first nine fields
of the terminating line with its first character dropped (`line[1:]`). -/
def colHeaderState (md : List (String × MetaVal)) (infos : List (String × InfoDef))
    (filters : List (String × FilterDef)) (line : String) : HeaderState :=
  { metadata := md, infos := infos, filters := filters,
    column_headers := (rowSplit (String.mk (line.data.drop 1))).take 9 }

/-- The loop of `Reader._parse_metainfo` over the stripped nonblank lines:
consume `##` lines (INFO and FILTER lines through their grammar parsers,
everything else through `read_meta` and the metadata storage policy); the
first other line has its first character dropped unconditionally and its
first nine fields become `column_headers`.  Running out of lines inside the
loop propagates the reader's `StopIteration`. -/
def parseHeaderLines : List String → List (String × MetaVal) →
    List (String × InfoDef) → List (String × FilterDef) →
    Except HdrErr (HeaderState × List String)
  | [], _, _, _ => Except.error HdrErr.stopIteration
  | line :: rest, md, infos, filters =>
    if strStarts line "##" then
      if strStarts line "##INFO" then
        match read_info line with
        | none => Except.error (HdrErr.syntaxError line)
        | some kv => parseHeaderLines rest md (dinsert infos kv.1 kv.2) filters
      else if strStarts line "##FILTER" then
        match read_filter line with
        | none => Except.error (HdrErr.syntaxError line)
        | some kv => parseHeaderLines rest md infos (dinsert filters kv.1 kv.2)
      else
        let kv := read_meta line
        parseHeaderLines rest (metaStore md kv.1 kv.2) infos filters
    else
      Except.ok (colHeaderState md infos filters line, rest)

/-- The `Reader._parse_metainfo` of `parser.py`, over the stream of stripped
nonblank lines. -/
def parse_metainfo (lines : List String) : Except HdrErr (HeaderState × List String) :=
  parseHeaderLines lines [] [] []

/-! ## Claim C9 — the AAVF cursor is single-pass and forward-only -/

/-- An `AAVF` state whose `record_len` is the captured list length (every
state reachable from `AAVF.init` has this shape). -/
def mkAAVF (md : List (String × MetaVal)) (infs : List (String × InfoDef))
    (fls : List (String × FilterDef)) (ch : List String) (recs : List Record)
    (i : Int) : AAVF :=
  { metadata := md, infos := infs, filters := fls, column_headers := ch,
    records := recs, record_len := (recs.length : Int), index := i }

theorem AAVF.pullN_of_nextRec_none {a : AAVF} (h : a.nextRec = none) (m : Nat) :
    a.pullN m = ([], a) := by
  cases m <;> simp [AAVF.pullN, h]

theorem AAVF.nextRec_last (md : List (String × MetaVal)) (infs : List (String × InfoDef))
    (fls : List (String × FilterDef)) (ch : List String) (recs : List Record) :
    (mkAAVF md infs fls ch recs ((recs.length : Int) - 1)).nextRec = none := by
  simp [AAVF.nextRec, mkAAVF]

theorem AAVF.pullN_from (md : List (String × MetaVal)) (infs : List (String × InfoDef))
    (fls : List (String × FilterDef)) (ch : List String) (recs : List Record) :
    ∀ (n j m : Nat), j + n = recs.length →
    (mkAAVF md infs fls ch recs ((j : Int) - 1)).pullN (n + m) =
    ((recs.drop j).map some, mkAAVF md infs fls ch recs ((recs.length : Int) - 1)) := by
  intro n
  induction n with
  | zero =>
    intro j m hj
    have hj' : j = recs.length := by omega
    subst hj'
    rw [AAVF.pullN_of_nextRec_none (AAVF.nextRec_last md infs fls ch recs)]
    simp [List.drop_length]
  | succ n ih =>
    intro j m hj
    have hjlt : j < recs.length := by omega
    have hcond : ¬ ((j : Int) - 1 = (recs.length : Int) - 1) := by omega
    have hnext : (mkAAVF md infs fls ch recs ((j : Int) - 1)).nextRec =
        some (some recs[j], mkAAVF md infs fls ch recs (((j + 1 : Nat) : Int) - 1)) := by
      have h2 : (((j : Int) - 1) + 1).toNat = j := by omega
      have h1 : ((j : Int) - 1) + 1 = ((j + 1 : Nat) : Int) - 1 := by push_cast; ring
      simp only [AAVF.nextRec, mkAAVF, if_neg hcond]
      rw [h2, List.get?_eq_getElem?, List.getElem?_eq_getElem hjlt, h1]
    have hstep : n + 1 + m = (n + m) + 1 := by omega
    rw [hstep]
    simp only [AAVF.pullN, hnext]
    rw [ih (j + 1) m (by omega), List.drop_eq_getElem_cons hjlt, List.map_cons]

/-- Claim C9: iterating an `AAVF` container yields `records[0]`, ...,
`records[n-1]` in order and then StopIteration; once exhausted, every
further `next()` raises StopIteration again, and a second iteration over the
same object (whose `__iter__` returns `self` and never resets the cursor)
yields no records. -/
theorem aavf_single_pass_cursor (md : List (String × MetaVal))
    (infs : List (String × InfoDef)) (fls : List (String × FilterDef))
    (ch : List String) (recs : List Record) (k : Nat) :
    ((AAVF.init md infs fls ch recs).pullN (recs.length + k)).1 = recs.map some ∧
    ((AAVF.init md infs fls ch recs).pullN (recs.length + k)).2.nextRec = none ∧
    ((AAVF.init md infs fls ch recs).pullN (recs.length + k)).2.pullN k =
      ([], ((AAVF.init md infs fls ch recs).pullN (recs.length + k)).2) := by
  have hinit : AAVF.init md infs fls ch recs =
      mkAAVF md infs fls ch recs (((0 : Nat) : Int) - 1) := by
    simp [AAVF.init, mkAAVF]
  have h := AAVF.pullN_from md infs fls ch recs recs.length 0 k (by omega)
  rw [hinit, h]
  refine ⟨by simp, AAVF.nextRec_last md infs fls ch recs, ?_⟩
  exact AAVF.pullN_of_nextRec_none (AAVF.nextRec_last md infs fls ch recs) k

/-! ## Claim C7 — singular vs accumulating metadata keys -/

theorem lookup_dinsert_self {β : Type} (l : List (String × β)) (k : String) (v : β) :
    (dinsert l k v).lookup k = some v := by
  induction l with
  | nil => simp [dinsert, List.lookup]
  | cons p t ih =>
    obtain ⟨k', v'⟩ := p
    by_cases h : k' = k
    · subst h
      simp [dinsert, List.lookup]
    · have hb : (k' == k) = false := beq_eq_false_iff_ne.mpr h
      have hb' : (k == k') = false := beq_eq_false_iff_ne.mpr (Ne.symm h)
      simp [dinsert, List.lookup, hb, hb', ih]

theorem lookup_dinsert_other {β : Type} (l : List (String × β)) (k k' : String) (v : β)
    (hne : k' ≠ k) : (dinsert l k v).lookup k' = l.lookup k' := by
  have hb : (k' == k) = false := beq_eq_false_iff_ne.mpr hne
  induction l with
  | nil => simp [dinsert, List.lookup, hb]
  | cons p t ih =>
    obtain ⟨k0, v0⟩ := p
    by_cases h : k0 = k
    · subst h
      simp [dinsert, List.lookup, hb]
    · have hb0 : (k0 == k) = false := beq_eq_false_iff_ne.mpr h
      simp only [dinsert, hb0, if_false]
      by_cases h' : k' = k0
      · subst h'
        simp [List.lookup]
      · have hb1 : (k' == k0) = false := beq_eq_false_iff_ne.mpr h'
        simp [List.lookup, hb1, ih]

theorem metaStore_lookup_other (md : List (String × MetaVal)) (k0 k : String)
    (v0 : MetaScalar) (hne : k0 ≠ k) :
    (metaStore md k0 v0).lookup k = md.lookup k := by
  unfold metaStore
  by_cases hs : k0 ∈ SINGULAR_METADATA
  · rw [if_pos hs]
    exact lookup_dinsert_other _ _ _ _ (Ne.symm hne)
  · rw [if_neg hs]
    cases hmd : md.lookup k0 with
    | none => exact lookup_dinsert_other _ _ _ _ (Ne.symm hne)
    | some mv =>
      cases mv <;> exact lookup_dinsert_other _ _ _ _ (Ne.symm hne)

/-- Claim C7, amended to the code: during header parsing the keys
`fileformat`, `fileDate` and `reference` (the `SINGULAR_METADATA` constant)
are stored as single scalar values, a later occurrence overwriting an
earlier one, while every other metadata key — `source` included —
accumulates all of its occurrences into an ordered list preserving
duplicates in file order. -/
theorem metadata_storage_policy (pairs : List (String × MetaScalar)) (k : String) :
    (k ∈ SINGULAR_METADATA →
      (metaFold pairs).lookup k =
        ((pairs.filter (fun p => p.1 == k)).getLast?).map (fun p => MetaVal.single p.2)) ∧
    (k ∉ SINGULAR_METADATA →
      (metaFold pairs).lookup k =
        if (pairs.filter (fun p => p.1 == k)) = [] then none
        else some (MetaVal.multi ((pairs.filter (fun p => p.1 == k)).map Prod.snd))) := by
  induction pairs using List.reverseRecOn with
  | nil => simp [metaFold, List.lookup]
  | append_singleton l kv ih =>
    obtain ⟨k0, v0⟩ := kv
    have hfold : metaFold (l ++ [(k0, v0)]) = metaStore (metaFold l) k0 v0 := by
      simp [metaFold, List.foldl_append]
    by_cases hk : k0 = k
    · subst hk
      have hfilter : (l ++ [(k0, v0)]).filter (fun p => p.1 == k0) =
          l.filter (fun p => p.1 == k0) ++ [(k0, v0)] := by
        simp [List.filter_append]
      constructor
      · intro hsing
        rw [hfold]
        unfold metaStore
        rw [if_pos hsing, lookup_dinsert_self, hfilter, List.getLast?_concat]
        rfl
      · intro hnsing
        rw [hfold]
        unfold metaStore
        rw [if_neg hnsing]
        have ihn := ih.2 hnsing
        by_cases hemp : l.filter (fun p => p.1 == k0) = []
        · rw [ihn, if_pos hemp]
          rw [lookup_dinsert_self, hfilter, hemp]
          simp
        · rw [ihn, if_neg hemp]
          rw [lookup_dinsert_self, hfilter]
          have hne : l.filter (fun p => p.1 == k0) ++ [(k0, v0)] ≠ [] := by simp
          rw [if_neg hne]
          simp
    · have hfilter : (l ++ [(k0, v0)]).filter (fun p => p.1 == k) =
          l.filter (fun p => p.1 == k) := by
        simp [List.filter_append, beq_eq_false_iff_ne.mpr hk]
      constructor
      · intro hsing
        rw [hfold, metaStore_lookup_other _ _ _ _ hk, ih.1 hsing, hfilter]
      · intro hnsing
        rw [hfold, metaStore_lookup_other _ _ _ _ hk, ih.2 hnsing, hfilter]

/-- Witness for the amended C7: `fileDate` is stored as a scalar. -/
theorem metadata_storage_policy_witness :
    ("fileDate" ∈ SINGULAR_METADATA) ∧
    (metaFold [("fileDate", MetaScalar.mstr "d"), ("source", MetaScalar.mstr "s")]).lookup
        "fileDate" =
      ((([("fileDate", MetaScalar.mstr "d"), ("source", MetaScalar.mstr "s")].filter
        (fun p => p.1 == "fileDate")).getLast?).map (fun p => MetaVal.single p.2)) :=
  ⟨by decide,
    (metadata_storage_policy [("fileDate", MetaScalar.mstr "d"),
      ("source", MetaScalar.mstr "s")] "fileDate").1 (by decide)⟩

/-- Counterexample for C7 as stated: `source` is not in `SINGULAR_METADATA`,
so two `##source=` lines accumulate into a list instead of the last one
overwriting as a scalar. -/
theorem metadata_source_not_singular_cex :
    (metaFold [("source", MetaScalar.mstr "a"), ("source", MetaScalar.mstr "b")]).lookup
        "source" = some (MetaVal.multi [MetaScalar.mstr "a", MetaScalar.mstr "b"]) ∧
    (metaFold [("source", MetaScalar.mstr "a"), ("source", MetaScalar.mstr "b")]).lookup
        "source" ≠ some (MetaVal.single (MetaScalar.mstr "b")) := by
  constructor
  · rfl
  · intro h
    cases h

/-! ## Claim C8 — missing column-header row handling -/

theorem parseHeaderLines_exhaust (lines : List String) :
    ∀ (md : List (String × MetaVal)) (infos : List (String × InfoDef))
      (filters : List (String × FilterDef)),
    (∀ m ∈ lines, strStarts m "##" = true ∧ strStarts m "##INFO" = false ∧
      strStarts m "##FILTER" = false) →
    parseHeaderLines lines md infos filters = Except.error HdrErr.stopIteration := by
  induction lines with
  | nil => intro md infos filters _; rfl
  | cons m mrest ih =>
    intro md infos filters hall
    have h := hall m (List.mem_cons_self m mrest)
    simp only [parseHeaderLines, h.1, h.2.1, h.2.2, if_true, Bool.false_eq_true, if_false]
    exact ih _ _ _ (fun x hx => hall x (List.mem_cons_of_mem m hx))

theorem parseHeaderLines_colrow (lines : List String) :
    ∀ (md : List (String × MetaVal)) (infos : List (String × InfoDef))
      (filters : List (String × FilterDef)) (l : String) (rest : List String),
    (∀ m ∈ lines, strStarts m "##" = true ∧ strStarts m "##INFO" = false ∧
      strStarts m "##FILTER" = false) →
    strStarts l "##" = false →
    ∃ hs : HeaderState,
      parseHeaderLines (lines ++ l :: rest) md infos filters = Except.ok (hs, rest) ∧
      hs.column_headers = (rowSplit (String.mk (l.data.drop 1))).take 9 := by
  induction lines with
  | nil =>
    intro md infos filters l rest _ hl
    refine ⟨colHeaderState md infos filters l, ?_, rfl⟩
    simp only [List.nil_append, parseHeaderLines, hl, Bool.false_eq_true, if_false]
  | cons m mrest ih =>
    intro md infos filters l rest hall hl
    have h := hall m (List.mem_cons_self m mrest)
    simp only [List.cons_append, parseHeaderLines, h.1, h.2.1, h.2.2, if_true,
      Bool.false_eq_true, if_false]
    exact ih _ _ _ l rest (fun x hx => hall x (List.mem_cons_of_mem m hx)) hl

/-- Claim C8, amended to the code: after consuming `##` lines (here plain
metadata lines), running out of input propagates the reader's bare
`StopIteration` rather than a distinguishable format error, and the next
line — whatever it is — is unconditionally treated as the column-header row:
its first character is dropped and its first nine fields become
`column_headers`, with no check that it begins with `#`. -/
theorem header_row_handling (metaLines : List String) (l : String) (rest : List String)
    (hmeta : ∀ m ∈ metaLines, strStarts m "##" = true ∧ strStarts m "##INFO" = false ∧
      strStarts m "##FILTER" = false) :
    parse_metainfo metaLines = Except.error HdrErr.stopIteration ∧
    (strStarts l "##" = false →
      ∃ hs : HeaderState,
        parse_metainfo (metaLines ++ l :: rest) = Except.ok (hs, rest) ∧
        hs.column_headers = (rowSplit (String.mk (l.data.drop 1))).take 9) := by
  constructor
  · exact parseHeaderLines_exhaust metaLines [] [] [] hmeta
  · intro hl
    exact parseHeaderLines_colrow metaLines [] [] [] l rest hmeta hl

/-- Witness for the amended C8 at a concrete one-line header block. -/
theorem header_row_handling_witness :
    (∀ m ∈ ["##fileformat=AAVFv1.0"], strStarts m "##" = true ∧
      strStarts m "##INFO" = false ∧ strStarts m "##FILTER" = false) ∧
    parse_metainfo ["##fileformat=AAVFv1.0"] = Except.error HdrErr.stopIteration :=
  ⟨by decide,
    (header_row_handling ["##fileformat=AAVFv1.0"] "#C" [] (by decide)).1⟩

/-- Counterexample for C8 as stated: a stream ending inside the `##` block
fails with the iteration-protocol `StopIteration`, not a format error, and a
data-like row without a leading `#` is accepted as the column-header row
(its first character silently dropped) instead of being rejected. -/
theorem header_row_no_check_cex :
    parse_metainfo ["##fileformat=AAVFv1.0"] = Except.error HdrErr.stopIteration ∧
    HdrErr.stopIteration ≠ HdrErr.syntaxError "##fileformat=AAVFv1.0" ∧
    parse_metainfo ["##fileformat=AAVFv1.0", "CHROM\tGENE\tPOS"] =
      Except.ok (colHeaderState
        [("fileformat", MetaVal.single (MetaScalar.mstr "AAVFv1.0"))] [] []
        "CHROM\tGENE\tPOS", []) ∧
    (colHeaderState [("fileformat", MetaVal.single (MetaScalar.mstr "AAVFv1.0"))] [] []
      "CHROM\tGENE\tPOS").column_headers = ["HROM", "GENE", "POS"] := by
  refine ⟨rfl, fun h => HdrErr.noConfusion h, rfl, rfl⟩

/-! ## Record decoding (`parser.py`, `Reader.next` and `_parse_info`) -/

/-- Value of a list of decimal digit characters. -/
def digitsVal (ds : List Char) : Nat :=
  ds.foldl (fun a c => a * 10 + (c.toNat - '0'.toNat)) 0

/-- Python `int(s)` on plain decimal literals: optional sign, then digits;
anything else raises `ValueError` (`none`).  Leading/trailing whitespace,
underscores and non-decimal bases do not occur in AAVF columns. -/
def pyInt (s : String) : Option Int :=
  match s.data with
  | '-' :: ds => if ds ≠ [] ∧ ds.all (·.isDigit) then some (-(digitsVal ds : Int)) else none
  | '+' :: ds => if ds ≠ [] ∧ ds.all (·.isDigit) then some ((digitsVal ds : Int)) else none
  | ds => if ds ≠ [] ∧ ds.all (·.isDigit) then some ((digitsVal ds : Int)) else none

/-- Decimal part of `pyFloat`: digits, optionally a point and more digits,
at least one digit in total; the value is exact. -/
def pyFloatCore (ds : List Char) : Option Rat :=
  let ip := ds.takeWhile (·.isDigit)
  let rest := ds.dropWhile (·.isDigit)
  match rest with
  | [] => if ip = [] then none else some ((digitsVal ip : Int) : Rat)
  | '.' :: fp =>
    if fp.all (·.isDigit) ∧ (ip ≠ [] ∨ fp ≠ []) then
      some (((digitsVal ip : Int) : Rat) + ((digitsVal fp : Int) : Rat) / ((10 : Rat) ^ fp.length))
    else none
  | _ => none

/-- Python `float(s)` on plain decimal literals, as an exact rational
(`0.5`, `0.0031`, ...); exponent and special forms do not occur in the
claims, and no claim compares float results beyond such literals, where
the exact-decimal model and IEEE shortest round-trip printing agree. -/
def pyFloat (s : String) : Option Rat :=
  match s.data with
  | '-' :: rest => (pyFloatCore rest).map (fun q => -q)
  | '+' :: rest => pyFloatCore rest
  | rest => pyFloatCore rest

/-- The `RESERVED_INFO` constant of `parser.py`. -/
def RESERVED_INFO : List (String × String) :=
  [("RC", "String"), ("AC", "String"), ("ACC", "Float"), ("ACF", "Float")]

/-- The `Reader._map(func, ...)` with the default bad values `['.', '']`:
bad tokens become `None`; a conversion failure (`ValueError`) anywhere
aborts the whole list. -/
def readerMap (f : String → Option Atom) : List String → Option (List (Option Atom))
  | [] => some []
  | x :: xs =>
    if x = "." ∨ x = "" then (readerMap f xs).map (fun l => none :: l)
    else
      match f x with
      | none => none
      | some a => (readerMap f xs).map (fun l => some a :: l)

/-- The `Reader._map(str, ...)` case: `str` never fails. -/
def readerMapStr (xs : List String) : List (Option Atom) :=
  xs.map (fun x => if x = "." ∨ x = "" then none else some (Atom.aStr x))

/-- Type resolution for one INFO entry: the header schema first, then the
reserved table, then `String` if a raw payload is present, else `Flag`. -/
def resolveInfoType (infos : List (String × InfoDef)) (ID : String)
    (hasPayload : Bool) : String :=
  match infos.lookup ID with
  | some d => d.type
  | none =>
    match RESERVED_INFO.lookup ID with
    | some t => t
    | none => if hasPayload then "String" else "Flag"

/-- One `entry` of `Reader._parse_info`: split on the first `=`, resolve the
type, decode per type (`Integer` falls back to float parsing on a
`ValueError`; `String`/`Character` without payload degrade to a true Flag;
a missing payload for `Integer`/`Float` is the uncaught `IndexError` of
`entry[1]`), then unwrap single-element lists when the header declares
`Number=1` for a non-Flag entry. -/
def parseInfoEntry (infos : List (String × InfoDef)) (entry : String) :
    Option (String × IValue) :=
  let parts := pySplit1 '=' entry
  let ID := parts.headD ""
  let entry_type := resolveInfoType infos ID (decide (parts.length > 1))
  let step : Option (String × IValue) :=
    if entry_type = "Integer" then
      match parts.get? 1 with
      | none => none
      | some p =>
        let vals := pySplit ',' p
        match readerMap (fun x => (pyInt x).map Atom.aInt) vals with
        | some l => some ("Integer", IValue.many l)
        | none =>
          match readerMap (fun x => (pyFloat x).map Atom.aFloat) vals with
          | some l => some ("Integer", IValue.many l)
          | none => none
    else if entry_type = "Float" then
      match parts.get? 1 with
      | none => none
      | some p =>
        match readerMap (fun x => (pyFloat x).map Atom.aFloat) (pySplit ',' p) with
        | some l => some ("Float", IValue.many l)
        | none => none
    else if entry_type = "Flag" then some ("Flag", IValue.flag true)
    else if entry_type = "String" ∨ entry_type = "Character" then
      match parts.get? 1 with
      | none => some ("Flag", IValue.flag true)
      | some p => some (entry_type, IValue.many (readerMapStr (pySplit ',' p)))
    else none
  match step with
  | none => none
  | some fv =>
    match infos.lookup ID with
    | some d =>
      if d.num = some 1 ∧ fv.1 ≠ "Flag" then
        match fv.2 with
        | IValue.many (a :: _) => some (ID, IValue.one a)
        | IValue.many [] => none
        | v => some (ID, v)
      else some (ID, fv.2)
    | none => some (ID, fv.2)

/-- The `Reader._parse_info` of `parser.py`: `.` decodes to the empty
mapping, otherwise the `;`-separated entries are decoded in order into a
dict (later duplicate identifiers overwrite). -/
def parse_info (infos : List (String × InfoDef)) (info_str : String) :
    Option (List (String × IValue)) :=
  if info_str = "." then some []
  else
    (pySplit ';' info_str).foldlM
      (fun acc e => (parseInfoEntry infos e).map (fun kv => dinsert acc kv.1 kv.2)) []

/-- Python `s.rstrip()`. -/
def pyRstrip (s : String) : String :=
  String.mk (s.data.reverse.dropWhile (·.isWhitespace)).reverse

/-- The `Reader.next` of `parser.py` (with `prepend_chr` at its default
`False`): split the stripped line on the row separator and decode the nine
columns positionally; a missing column (`IndexError`) or a failing numeric
conversion (`ValueError`) aborts the record. -/
def Reader.next (infos : List (String × InfoDef)) (line : String) : Option Record := do
  let row := rowSplit (pyRstrip line)
  let c0 ← row.get? 0
  let c1 ← row.get? 1
  let c2 ← row.get? 2
  let c3 ← row.get? 3
  let c4 ← row.get? 4
  let c5 ← row.get? 5
  let c6 ← row.get? 6
  let c7 ← row.get? 7
  let c8 ← row.get? 8
  let pos ← pyInt c2
  let alt_freq ← pyFloat c6
  let coverage ← pyInt c7
  let info ← parse_info infos c8
  pure { CHROM := c0, GENE := c1, POS := pos, REF := c3, ALT := pySplit ',' c4,
         FILTER := Reader.parse_filter c5, ALT_FREQ := alt_freq,
         COVERAGE := coverage, INFO := info }

/-! ## Record encoding (`parser.py`, class `Writer`) -/

/-- Python exceptions escaping from the `Writer`. -/
inductive PyErr where
  | attributeError
  | keyError
deriving DecidableEq, Repr

namespace Writer

/-- The `Writer._stringify` of `parser.py`.  Its first statement evaluates
`type(x).isinstance(type([]))`; type objects have no `isinstance` attribute,
so every call raises `AttributeError` before either branch is reached,
whatever `x` is. -/
def stringify {α : Type} (_x : α) : Except PyErr String :=
  Except.error PyErr.attributeError

/-- The `Writer._format_filter`: `PASS` for an empty list, otherwise
`_stringify` (which raises). -/
def format_filter (flt : Option (List String)) : Except PyErr String :=
  if flt = some [] then Except.ok "PASS" else stringify flt

/-- The `Writer._stringify_pair`: a bool (Flag) renders as the bare
identifier when true and as the empty token when false; any other value goes
through `_stringify` (which raises). -/
def stringify_pair (x : String) (y : IValue) : Except PyErr String :=
  match y with
  | IValue.flag b => Except.ok (if b then x else "")
  | v => (stringify v).map (fun s => x ++ "=" ++ s)

end Writer

/-- The `Writer.info_order` defaultdict: index of the identifier among the
header's INFO definitions, in declaration order; identifiers absent from the
header get the maximum key `len(template.infos)` (which is what
`List.indexOf` returns for a missing element). -/
def info_order (hdrIds : List String) (f : String) : Nat := hdrIds.indexOf f

/-- Python tuple `<=` on the sort keys `order_key(f) = (info_order[f], f)`:
header position first, identifier (code-point order) second. -/
def orderLeB (hdrIds : List String) (a b : String) : Bool :=
  (decide (info_order hdrIds a < info_order hdrIds b)) ||
    ((info_order hdrIds a == info_order hdrIds b) && strLeB a b)

/-- Insert into a sorted list, keeping earlier elements first on ties
(stability, as Python's sort). -/
def insertLe {α : Type} (le : α → α → Bool) (x : α) : List α → List α
  | [] => [x]
  | y :: t => if le x y then x :: y :: t else y :: insertLe le x t

/-- Stable insertion sort; extensionally equal to Python `sorted` for any
total order, and the sort keys below are injective so stability is moot. -/
def sortByLe {α : Type} (le : α → α → Bool) : List α → List α
  | [] => []
  | x :: t => insertLe le x (sortByLe le t)

/-- The identifier sequence of one encoded INFO column:
`sorted(info, key=order_key)` over the dict's keys. -/
def format_info_fields (hdrIds : List String) (info : List (String × IValue)) :
    List String :=
  sortByLe (orderLeB hdrIds) (info.map Prod.fst)

namespace Writer

/-- The `Writer._format_info`: `.` for an empty mapping, else the
`;`-joined `_stringify_pair` renderings in sorted field order (the `keyError`
arm models a dict lookup miss, impossible for fields drawn from the dict). -/
def format_info (hdrIds : List String) (info : List (String × IValue)) :
    Except PyErr String :=
  if info = [] then Except.ok "."
  else do
    let parts ← (format_info_fields hdrIds info).mapM
      (fun f =>
        match info.lookup f with
        | some v => stringify_pair f v
        | none => Except.error PyErr.keyError)
    pure (String.intercalate ";" parts)

end Writer

/-- Python `str()` of a list of strings, as the csv writer applies to the
raw `record.ALT` cell: bracketed, comma-space separated, quoted items. -/
def pyListRepr (l : List String) : String :=
  "[" ++ String.intercalate ", " (l.map (fun s => "\x27" ++ s ++ "\x27")) ++ "]"

/-- Decimal digits of a proper fraction `r / d`, up to a fuel bound. -/
def decFrac : Nat → Nat → Nat → String
  | 0, _, _ => ""
  | _ + 1, 0, _ => ""
  | fuel + 1, r, d =>
    String.singleton (Nat.digitChar (r * 10 / d)) ++ decFrac fuel (r * 10 % d) d

/-- Python `str()` of a float, for the values this engine writes: the exact
decimal expansion (with `.0` for integral values), matching IEEE shortest
round-trip printing on plain decimal literals. -/
def ratDecimalStr (q : Rat) : String :=
  let sign := if q < 0 then "-" else ""
  let n := q.num.natAbs
  let ip := n / q.den
  let fr := n % q.den
  if fr = 0 then sign ++ toString ip ++ ".0"
  else sign ++ toString ip ++ "." ++ decFrac 64 fr q.den

namespace Writer

/-- The `Writer.write_record` of `parser.py`: build the `ffs` cell list left
to right — the stringified `CHROM`/`GENE`/`POS`, `REF`, the raw `ALT` list
(stringified later by the csv writer), the formatted FILTER, `ALT_FREQ`,
`COVERAGE` and the formatted INFO — then the csv writer joins the cells with
tabs.  The FILTER and INFO formatting can raise while the list is built. -/
def write_record (hdrIds : List String) (r : Record) : Except PyErr String := do
  let ff ← format_filter r.FILTER
  let fi ← format_info hdrIds r.INFO
  pure (String.intercalate "\t"
    [r.CHROM, r.GENE, toString r.POS, r.REF, pyListRepr r.ALT, ff,
     ratDecimalStr r.ALT_FREQ, toString r.COVERAGE, fi])

end Writer

/-! ## Claim C1 — encode/decode round trip -/

/-- A well-formed AAVF data line (under an empty INFO schema; `AC` resolves
to `String` through `RESERVED_INFO`). -/
def c1Line : String := "HIV1\tgag\t10\tA\tT\tPASS\t7\t100\tAC=tAa"

/-- The record decoded from `c1Line`. -/
def c1Record : Record :=
  { CHROM := "HIV1", GENE := "gag", POS := 10, REF := "A", ALT := ["T"],
    FILTER := some [], ALT_FREQ := ((7 : Int) : Rat), COVERAGE := 100,
    INFO := [("AC", IValue.many [some (Atom.aStr "tAa")])] }

/-- A record whose only INFO entry is a Flag and whose FILTER is PASS: the
single shape `write_record` can serialize without raising. -/
def c1FlagRecord : Record :=
  { CHROM := "HIV1", GENE := "gag", POS := 10, REF := "A", ALT := ["T"],
    FILTER := some [], ALT_FREQ := ((7 : Int) : Rat), COVERAGE := 100,
    INFO := [("X", IValue.flag true)] }

/-- Claim C1 is a code defect: the round trip never happens.  Decoding the
well-formed `c1Line` yields `c1Record`, but `write_record` raises
`AttributeError` on it — `_stringify` evaluates `type(x).isinstance(type([]))`
and type objects have no `isinstance` attribute — as it does for every
record whose FILTER is the missing marker or a non-empty filter list, or
whose INFO holds any non-Flag value (every Integer, Float, Character and
String entry).  Even on the one crash-free shape (PASS filter, all-Flag
INFO) the raw `ALT` list is serialized by the csv writer as its Python repr
`['T']` (`_format_alt` is never called), so re-decoding splits the ALT cell
into `["['T']"]`, not the original `["T"]`. -/
theorem roundtrip_encode_raises :
    Reader.next [] c1Line = some c1Record ∧
    Writer.write_record [] c1Record = Except.error PyErr.attributeError ∧
    Writer.format_filter none = Except.error PyErr.attributeError ∧
    Writer.format_filter (some ["mq30"]) = Except.error PyErr.attributeError ∧
    Writer.write_record [] c1FlagRecord =
      Except.ok "HIV1\tgag\t10\tA\t['T']\tPASS\t7.0\t100\tX" ∧
    (rowSplit "HIV1\tgag\t10\tA\t['T']\tPASS\t7.0\t100\tX").get? 4 = some "['T']" ∧
    pySplit ',' "['T']" = ["['T']"] ∧ c1FlagRecord.ALT = ["T"] :=
  ⟨by decide, rfl, rfl, rfl, rfl, by decide, by decide, rfl⟩

/-! ## Claim C6 — INFO field ordering in encoded records -/

theorem strLeB_eq_true_iff {a b : String} : strLeB a b = true ↔ strLtB b a = false := by
  cases h : strLtB b a <;> simp [strLeB, h]

theorem strNotLt_trans {a b c : String} (h1 : strLtB b a = false)
    (h2 : strLtB c b = false) : strLtB c a = false := by
  cases hca : strLtB c a with
  | false => rfl
  | true =>
    exfalso
    by_cases hbc : strLtB b c = true
    · have hba := strLtB_trans hbc hca
      rw [h1] at hba
      exact Bool.false_ne_true hba
    · have hb : b = c := strLtB_connex (Bool.eq_false_iff.mpr hbc) h2
      rw [hb, hca] at h1
      exact Bool.noConfusion h1

theorem contains_iff_mem (l : List String) (a : String) : l.contains a = true ↔ a ∈ l := by
  simp [List.contains, List.elem_iff]

theorem strLeB_total (a b : String) : strLeB a b = true ∨ strLeB b a = true := by
  cases h : strLtB b a with
  | false => exact Or.inl (strLeB_eq_true_iff.mpr h)
  | true => exact Or.inr (strLeB_eq_true_iff.mpr (strLtB_asymm h))

theorem strLeB_trans {a b c : String} (h1 : strLeB a b = true)
    (h2 : strLeB b c = true) : strLeB a c = true :=
  strLeB_eq_true_iff.mpr
    (strNotLt_trans (strLeB_eq_true_iff.mp h1) (strLeB_eq_true_iff.mp h2))

theorem strLeB_antisymm {a b : String} (h1 : strLeB a b = true)
    (h2 : strLeB b a = true) : a = b :=
  strLtB_connex (strLeB_eq_true_iff.mp h2) (strLeB_eq_true_iff.mp h1)

theorem orderLeB_eq_true_iff {h : List String} {a b : String} :
    orderLeB h a b = true ↔
      (info_order h a < info_order h b ∨
        (info_order h a = info_order h b ∧ strLtB b a = false)) := by
  cases hlt : strLtB b a <;>
    simp [orderLeB, strLeB, hlt, Bool.or_eq_true, Bool.and_eq_true,
      decide_eq_true_eq, beq_iff_eq]

theorem orderLeB_total (h : List String) (a b : String) :
    orderLeB h a b = true ∨ orderLeB h b a = true := by
  by_cases hlt : info_order h a < info_order h b
  · exact Or.inl (orderLeB_eq_true_iff.mpr (Or.inl hlt))
  · by_cases hgt : info_order h b < info_order h a
    · exact Or.inr (orderLeB_eq_true_iff.mpr (Or.inl hgt))
    · have heq : info_order h a = info_order h b := by omega
      cases hba : strLtB b a with
      | false => exact Or.inl (orderLeB_eq_true_iff.mpr (Or.inr ⟨heq, hba⟩))
      | true =>
        exact Or.inr (orderLeB_eq_true_iff.mpr (Or.inr ⟨heq.symm, strLtB_asymm hba⟩))

theorem orderLeB_trans (h : List String) (a b c : String)
    (h1 : orderLeB h a b = true) (h2 : orderLeB h b c = true) :
    orderLeB h a c = true := by
  rw [orderLeB_eq_true_iff] at h1 h2 ⊢
  rcases h1 with h1 | ⟨he1, hs1⟩
  · rcases h2 with h2 | ⟨he2, _⟩
    · exact Or.inl (by omega)
    · exact Or.inl (by omega)
  · rcases h2 with h2 | ⟨he2, hs2⟩
    · exact Or.inl (by omega)
    · exact Or.inr ⟨by omega, strNotLt_trans hs1 hs2⟩

theorem orderLeB_antisymm (h : List String) {a b : String}
    (h1 : orderLeB h a b = true) (h2 : orderLeB h b a = true) : a = b := by
  rw [orderLeB_eq_true_iff] at h1 h2
  rcases h1 with h1 | ⟨_, hs1⟩
  · rcases h2 with h2 | ⟨he2, _⟩
    · omega
    · omega
  · rcases h2 with h2 | ⟨he2, hs2⟩
    · omega
    · exact strLtB_connex hs2 hs1

theorem insertLe_perm {α : Type} (le : α → α → Bool) (x : α) (l : List α) :
    (insertLe le x l).Perm (x :: l) := by
  induction l with
  | nil => exact List.Perm.refl _
  | cons y t ih =>
    simp only [insertLe]
    by_cases h : le x y = true
    · rw [if_pos h]
    · rw [if_neg h]
      exact (ih.cons y).trans (List.Perm.swap x y t)

theorem sortByLe_perm {α : Type} (le : α → α → Bool) (l : List α) :
    (sortByLe le l).Perm l := by
  induction l with
  | nil => exact List.Perm.refl _
  | cons x t ih => exact (insertLe_perm le x (sortByLe le t)).trans (ih.cons x)

theorem mem_insertLe {α : Type} {le : α → α → Bool} {x b : α} {l : List α}
    (h : b ∈ insertLe le x l) : b = x ∨ b ∈ l := by
  have := (insertLe_perm le x l).mem_iff.mp h
  simpa [List.mem_cons] using this

theorem pairwise_insertLe {α : Type} {le : α → α → Bool}
    (htot : ∀ a b, le a b = true ∨ le b a = true)
    (htrans : ∀ a b c, le a b = true → le b c = true → le a c = true)
    (x : α) (l : List α) (hl : l.Pairwise (fun a b => le a b = true)) :
    (insertLe le x l).Pairwise (fun a b => le a b = true) := by
  induction l with
  | nil => simp [insertLe]
  | cons y t ih =>
    rcases List.pairwise_cons.mp hl with ⟨hy, ht⟩
    simp only [insertLe]
    by_cases h : le x y = true
    · rw [if_pos h]
      refine List.pairwise_cons.mpr ⟨?_, hl⟩
      intro b hb
      rcases List.mem_cons.mp hb with rfl | hb'
      · exact h
      · exact htrans x y b h (hy b hb')
    · rw [if_neg h]
      have hyx : le y x = true := (htot x y).resolve_left h
      refine List.pairwise_cons.mpr ⟨?_, ih ht⟩
      intro b hb
      rcases mem_insertLe hb with rfl | hb'
      · exact hyx
      · exact hy b hb'

theorem pairwise_sortByLe {α : Type} {le : α → α → Bool}
    (htot : ∀ a b, le a b = true ∨ le b a = true)
    (htrans : ∀ a b c, le a b = true → le b c = true → le a c = true)
    (l : List α) : (sortByLe le l).Pairwise (fun a b => le a b = true) := by
  induction l with
  | nil => simp [sortByLe]
  | cons x t ih => exact pairwise_insertLe htot htrans x (sortByLe le t) ih

theorem nodup_pairwise_indexOf (l : List String) (h : l.Nodup) :
    l.Pairwise (fun a b => l.indexOf a < l.indexOf b) := by
  rw [List.pairwise_iff_getElem]
  intro i j hi hj hij
  rw [List.indexOf_getElem h i hi, List.indexOf_getElem h j hj]
  exact hij

/-- Claim C6: the identifier sequence of an encoded INFO column is exactly
the header-declared identifiers that occur in the record, in header
declaration order, followed by the identifiers absent from the header in
alphabetical (code-point) order. -/
theorem info_field_order (hdrIds : List String) (info : List (String × IValue))
    (hh : hdrIds.Nodup) (hf : (info.map Prod.fst).Nodup) :
    format_info_fields hdrIds info =
      hdrIds.filter (fun x => (info.map Prod.fst).contains x) ++
      sortByLe strLeB ((info.map Prod.fst).filter (fun f => !hdrIds.contains f)) := by
  have htrans : ∀ a b c, orderLeB hdrIds a b = true → orderLeB hdrIds b c = true →
      orderLeB hdrIds a c = true := orderLeB_trans hdrIds
  have hLs := pairwise_sortByLe (orderLeB_total hdrIds) htrans (info.map Prod.fst)
  have hLp := sortByLe_perm (orderLeB hdrIds) (info.map Prod.fst)
  have hmemR : ∀ x ∈ sortByLe strLeB ((info.map Prod.fst).filter (fun f => !hdrIds.contains f)),
      x ∉ hdrIds := by
    intro x hx
    have hxf := (sortByLe_perm strLeB _).subset hx
    have h2 := (List.mem_filter.mp hxf).2
    simp only [Bool.not_eq_true'] at h2
    intro hmem
    rw [(contains_iff_mem hdrIds x).mpr hmem] at h2
    exact Bool.noConfusion h2
  have hperm1 : (hdrIds.filter (fun x => (info.map Prod.fst).contains x)).Perm
      ((info.map Prod.fst).filter (fun x => hdrIds.contains x)) := by
    rw [List.perm_ext_iff_of_nodup (hh.filter _) (hf.filter _)]
    intro a
    rw [List.mem_filter, List.mem_filter]
    constructor
    · rintro ⟨h1, h2⟩
      exact ⟨(contains_iff_mem _ _).mp h2, (contains_iff_mem _ _).mpr h1⟩
    · rintro ⟨h1, h2⟩
      exact ⟨(contains_iff_mem _ _).mp h2, (contains_iff_mem _ _).mpr h1⟩
  have hRp : (hdrIds.filter (fun x => (info.map Prod.fst).contains x) ++
      sortByLe strLeB ((info.map Prod.fst).filter (fun f => !hdrIds.contains f))).Perm
      (info.map Prod.fst) := by
    refine (hperm1.append (sortByLe_perm strLeB _)).trans ?_
    exact List.filter_append_perm (fun x => hdrIds.contains x) (info.map Prod.fst)
  have hL : (hdrIds.filter (fun x => (info.map Prod.fst).contains x)).Pairwise
      (fun a b => orderLeB hdrIds a b = true) := by
    have hp := (nodup_pairwise_indexOf hdrIds hh).filter
      (fun x => (info.map Prod.fst).contains x)
    exact hp.imp (fun hab => orderLeB_eq_true_iff.mpr (Or.inl hab))
  have hR : (sortByLe strLeB ((info.map Prod.fst).filter (fun f => !hdrIds.contains f))).Pairwise
      (fun a b => orderLeB hdrIds a b = true) := by
    have hsorted := pairwise_sortByLe strLeB_total (fun a b c => strLeB_trans)
      ((info.map Prod.fst).filter (fun f => !hdrIds.contains f))
    refine hsorted.imp_of_mem ?_
    intro a b ha hb hab
    have hA : info_order hdrIds a = hdrIds.length := List.indexOf_eq_length.mpr (hmemR a ha)
    have hB : info_order hdrIds b = hdrIds.length := List.indexOf_eq_length.mpr (hmemR b hb)
    exact orderLeB_eq_true_iff.mpr
      (Or.inr ⟨by rw [hA, hB], strLeB_eq_true_iff.mp hab⟩)
  have hcross : ∀ a ∈ hdrIds.filter (fun x => (info.map Prod.fst).contains x),
      ∀ b ∈ sortByLe strLeB ((info.map Prod.fst).filter (fun f => !hdrIds.contains f)),
      orderLeB hdrIds a b = true := by
    intro a ha b hb
    have haIn : a ∈ hdrIds := (List.mem_filter.mp ha).1
    have h1 : info_order hdrIds a < hdrIds.length := List.indexOf_lt_length.mpr haIn
    have h2 : info_order hdrIds b = hdrIds.length := List.indexOf_eq_length.mpr (hmemR b hb)
    exact orderLeB_eq_true_iff.mpr (Or.inl (by rw [h2]; exact h1))
  have hRsorted := List.pairwise_append.mpr ⟨hL, hR, hcross⟩
  exact @List.eq_of_perm_of_sorted String (fun a b => orderLeB hdrIds a b = true)
    ⟨fun a b ha hb => orderLeB_antisymm hdrIds ha hb⟩ _ _
    (hLp.trans hRp.symm) hLs hRsorted

/-- Concrete header INFO ids for the C6 witness. -/
def c6Hdr : List String := ["RC", "AC"]

/-- Concrete record INFO mapping for the C6 witness: one header-defined
identifier and two undefined ones, deliberately out of order. -/
def c6Info : List (String × IValue) :=
  [("Z", IValue.flag true), ("AC", IValue.flag true), ("A", IValue.flag true)]

/-- Witness for C6: the defined identifier `AC` comes first, then the
undefined `A`, `Z` alphabetically. -/
theorem info_field_order_witness :
    (c6Hdr.Nodup ∧ (c6Info.map Prod.fst).Nodup) ∧
    format_info_fields c6Hdr c6Info =
      c6Hdr.filter (fun x => (c6Info.map Prod.fst).contains x) ++
      sortByLe strLeB ((c6Info.map Prod.fst).filter (fun f => !c6Hdr.contains f)) ∧
    format_info_fields c6Hdr c6Info = ["AC", "A", "Z"] :=
  ⟨⟨by decide, by decide⟩, info_field_order c6Hdr c6Info (by decide) (by decide), by decide⟩

/-! ## Claim C3 — one row per distinct key over sorted sources -/

/-- All keys a set of sources will ever produce (cursors included), in
source order. -/
def allKeys (srcs : List Src) : List Key :=
  match srcs with
  | [] => []
  | s :: t => (srcList s).map rkey ++ allKeys t

/-- All keys of a list of readers, in reader order. -/
def keysOfReaders (readers : List (List Record)) : List Key :=
  match readers with
  | [] => []
  | l :: t => l.map rkey ++ keysOfReaders t

/-- Strictly below every key the merge may still emit: the previously
emitted key, `none` before the first emission. -/
def prevLt (prev : Option Key) (k : Key) : Prop :=
  match prev with
  | none => True
  | some p => keyLtB p k = true

/-- Invariant of one source during the merge: its remaining records are
strictly increasing by key, all of them above the previously emitted key,
and an exhausted cursor has no remaining records. -/
def SrcInv (prev : Option Key) (s : Src) : Prop :=
  (srcList s).Pairwise (fun a b => keyLtB (rkey a) (rkey b) = true) ∧
  (∀ r ∈ srcList s, prevLt prev (rkey r)) ∧
  (s.1 = none → s.2 = [])

/-- Invariant of the whole merge state. -/
def WInv (prev : Option Key) (srcs : List Src) : Prop := ∀ s ∈ srcs, SrcInv prev s

theorem srcList_headTail (l : List Record) : srcList (l.head?, l.tail) = l := by
  cases l <;> simp [srcList]

theorem allKeys_init (readers : List (List Record)) :
    allKeys (initSrcs readers) = keysOfReaders readers := by
  induction readers with
  | nil => rfl
  | cons l t ih =>
    have h1 : initSrcs (l :: t) = (l.head?, l.tail) :: initSrcs t := rfl
    rw [h1]
    simp only [allKeys, keysOfReaders, srcList_headTail, ih]

theorem mem_allKeys {srcs : List Src} {k : Key} :
    k ∈ allKeys srcs ↔ ∃ s ∈ srcs, ∃ r ∈ srcList s, rkey r = k := by
  induction srcs with
  | nil => simp [allKeys]
  | cons s t ih =>
    simp only [allKeys, List.mem_append, List.mem_map, ih, List.mem_cons]
    constructor
    · rintro (⟨r, hr, hk⟩ | ⟨s', hs', r, hr, hk⟩)
      · exact ⟨s, Or.inl rfl, r, hr, hk⟩
      · exact ⟨s', Or.inr hs', r, hr, hk⟩
    · rintro ⟨s', hs' | hs', r, hr, hk⟩
      · exact Or.inl ⟨r, hs' ▸ hr, hk⟩
      · exact Or.inr ⟨s', hs', r, hr, hk⟩

theorem totalCount_cons (s : Src) (t : List Src) :
    totalCount (s :: t) = srcCount s + totalCount t := by
  simp [totalCount]

theorem srcCount_eq_zero {s : Src} (h : srcCount s = 0) : srcList s = [] := by
  obtain ⟨c, rest⟩ := s
  cases c with
  | none =>
    simp only [srcCount] at h
    simp only [srcList]
    simpa using List.length_eq_zero.mp (by omega)
  | some r => simp [srcCount] at h

theorem allKeys_nil_of_count_zero {srcs : List Src} (h : totalCount srcs = 0) :
    allKeys srcs = [] := by
  induction srcs with
  | nil => rfl
  | cons s t ih =>
    rw [totalCount_cons] at h
    simp [allKeys, srcCount_eq_zero (by omega : srcCount s = 0), ih (by omega)]

theorem curKeys_cons (s : Src) (t : List Src) :
    curKeys (s :: t) =
      (match s.1 with | some r => [rkey r] | none => []) ++ curKeys t := by
  obtain ⟨c, rest⟩ := s
  cases c <;> simp [curKeys, List.filterMap_cons]

theorem allKeys_nil_of_curKeys_nil {prev : Option Key} {srcs : List Src}
    (hc : curKeys srcs = []) (hInv : WInv prev srcs) : allKeys srcs = [] := by
  induction srcs with
  | nil => rfl
  | cons s t ih =>
    rw [curKeys_cons] at hc
    cases hcur : s.1 with
    | some r => rw [hcur] at hc; cases hc
    | none =>
      rw [hcur] at hc
      simp only [List.nil_append] at hc
      have hrest : s.2 = [] := (hInv s (List.mem_cons_self s t)).2.2 hcur
      have hsl : srcList s = [] := by simp [srcList, hcur, hrest]
      have ht := ih hc (fun x hx => hInv x (List.mem_cons_of_mem s hx))
      simp [allKeys, hsl, ht]

theorem wtStep_eq_none {prev : Option Key} {srcs : List Src} :
    wtStep prev srcs = none ↔ curKeys srcs = [] := by
  constructor
  · intro h
    cases hsel : selectKey prev (curKeys srcs) with
    | none => exact selectKey_eq_none.mp hsel
    | some mk => unfold wtStep at h; rw [hsel] at h; cases h
  · intro h
    unfold wtStep
    rw [h]
    rfl

theorem selectKey_lt_of_ne {prev : Option Key} {ks : List Key} {mk k : Key}
    (hsel : selectKey prev ks = some mk) (hk : k ∈ ks) (hne : k ≠ mk)
    (hprev : ∀ y ∈ ks, prevLt prev y) : keyLtB mk k = true := by
  obtain ⟨hA, hB⟩ := selectKey_spec hsel
  cases hfil : ks.filter (prevChromMatch prev) with
  | nil =>
    obtain ⟨_, hmin⟩ := hB hfil
    exact keyLtB_gt_of_ne (hmin k hk) hne
  | cons s ss =>
    obtain ⟨hmem, hmin⟩ := hA (by rw [hfil]; exact List.cons_ne_nil s ss)
    by_cases hmatch : prevChromMatch prev k = true
    · have hkf : k ∈ ks.filter (prevChromMatch prev) := List.mem_filter.mpr ⟨hk, hmatch⟩
      exact keyLtB_gt_of_ne (hmin k hkf) hne
    · cases hprev' : prev with
      | none =>
        rw [hprev', prevChromMatch_none] at hfil
        cases hfil
      | some p =>
        have hpk : keyLtB p k = true := by
          have hy := hprev k hk
          rw [hprev'] at hy
          exact hy
        have hkp1 : k.1 ≠ p.1 := by
          intro he
          rw [hprev'] at hmatch
          simp [prevChromMatch, he] at hmatch
        have hp1 : strLtB p.1 k.1 = true := keyLtB_chrom_lt hpk (Ne.symm hkp1)
        have hmk1 : mk.1 = p.1 := by
          have hm2 := (List.mem_filter.mp hmem).2
          rw [hprev'] at hm2
          simpa [prevChromMatch, beq_iff_eq] using hm2
        exact keyLtB_of_chrom_lt (by rw [hmk1]; exact hp1)

theorem cursor_mem_srcList {s : Src} {r : Record} (h : s.1 = some r) :
    r ∈ srcList s := by
  simp [srcList, h]

theorem advanceOne_exhausted {mk : Key} {s : Src} (h : s.1 = none) :
    advanceOne mk s = s := by
  rw [advanceOne, h]

theorem advanceOne_hit {mk : Key} {s : Src} {r : Record} (h : s.1 = some r)
    (he : rkey r = mk) : advanceOne mk s = (s.2.head?, s.2.tail) := by
  rw [advanceOne, h]
  simp [beq_iff_eq.mpr he]

theorem advanceOne_miss {mk : Key} {s : Src} {r : Record} (h : s.1 = some r)
    (hne : rkey r ≠ mk) : advanceOne mk s = s := by
  rw [advanceOne, h]
  simp [beq_eq_false_iff_ne.mpr hne]

theorem srcList_advanceOne_subset (mk : Key) (s : Src) :
    ∀ r ∈ srcList (advanceOne mk s), r ∈ srcList s := by
  intro r hr
  cases hc : s.1 with
  | none => rw [advanceOne_exhausted hc] at hr; exact hr
  | some r0 =>
    by_cases he : rkey r0 = mk
    · rw [advanceOne_hit hc he, srcList_headTail] at hr
      simp [srcList, hc, hr]
    · rw [advanceOne_miss hc he] at hr
      exact hr

theorem curKeys_prevLt {prev : Option Key} {srcs : List Src}
    (hInv : WInv prev srcs) : ∀ y ∈ curKeys srcs, prevLt prev y := by
  intro y hy
  obtain ⟨s, hs, r, hsr, hk⟩ := mem_curKeys.mp hy
  have := (hInv s hs).2.1 r (cursor_mem_srcList hsr)
  exact hk ▸ this

theorem advanceOne_srcInv {prev : Option Key} {srcs : List Src} {mk : Key}
    (hsel : selectKey prev (curKeys srcs) = some mk)
    (hInv : WInv prev srcs) {s : Src} (hs : s ∈ srcs) :
    SrcInv (some mk) (advanceOne mk s) := by
  obtain ⟨hpair, hplt, hnone⟩ := hInv s hs
  have hprevAll := curKeys_prevLt hInv
  cases hc : s.1 with
  | none =>
    rw [advanceOne_exhausted hc]
    have hrest := hnone hc
    have hsl : srcList s = [] := by simp [srcList, hc, hrest]
    refine ⟨by rw [hsl]; exact List.Pairwise.nil, ?_, fun _ => hrest⟩
    intro r hr
    rw [hsl] at hr
    cases hr
  | some r0 =>
    have hsl : srcList s = r0 :: s.2 := by simp [srcList, hc]
    rw [hsl] at hpair hplt
    obtain ⟨hhead, htail⟩ := List.pairwise_cons.mp hpair
    by_cases he : rkey r0 = mk
    · rw [advanceOne_hit hc he]
      refine ⟨?_, ?_, ?_⟩
      · rw [srcList_headTail]
        exact htail
      · rw [srcList_headTail]
        intro r hr
        have hx := hhead r hr
        rw [he] at hx
        exact hx
      · cases hrest : s.2 with
        | nil => intro _; rfl
        | cons a t => intro hh; simp at hh
    · rw [advanceOne_miss hc he]
      have hr0cur : rkey r0 ∈ curKeys srcs := mem_curKeys.mpr ⟨s, hs, r0, hc, rfl⟩
      have hmk0 : keyLtB mk (rkey r0) = true :=
        selectKey_lt_of_ne hsel hr0cur he hprevAll
      refine ⟨by rw [hsl]; exact hpair, ?_, fun hh => by rw [hh] at hc; cases hc⟩
      rw [hsl]
      intro r hr
      rcases List.mem_cons.mp hr with rfl | hr'
      · exact hmk0
      · exact keyLtB_trans hmk0 (hhead r hr')

theorem step_count_lt {prev : Option Key} {srcs srcs' : List Src}
    {row : List (Option Record)} {mk : Key}
    (h : wtStep prev srcs = some (row, mk, srcs')) :
    totalCount srcs' < totalCount srcs := by
  obtain ⟨hsel, _, hadv⟩ := wtStep_eq h
  obtain ⟨s, hs, r, hsr, hk⟩ := mem_curKeys.mp (selectKey_some_mem hsel)
  subst hadv
  unfold advance totalCount
  rw [List.map_map]
  refine List.sum_lt_sum _ _ ?_ ⟨s, hs, ?_⟩
  · intro x _
    show srcCount (advanceOne mk x) ≤ srcCount x
    cases hc : x.1 with
    | none => rw [advanceOne_exhausted hc]
    | some r0 =>
      by_cases he : rkey r0 = mk
      · rw [advanceOne_hit hc he]
        cases hrest : x.2 with
        | nil => simp [srcCount, hc, hrest]
        | cons a t => simp [srcCount, hc, hrest]
      · rw [advanceOne_miss hc he]
  · show srcCount (advanceOne mk s) < srcCount s
    rw [advanceOne_hit hsr hk]
    cases hrest : s.2 with
    | nil => simp [srcCount, hsr, hrest]
    | cons a t => simp [srcCount, hsr, hrest]

theorem step_keys_iff {prev : Option Key} {srcs srcs' : List Src}
    {row : List (Option Record)} {mk : Key}
    (hInv : WInv prev srcs) (h : wtStep prev srcs = some (row, mk, srcs')) :
    ∀ x, x ∈ allKeys srcs ↔ (x = mk ∨ x ∈ allKeys srcs') := by
  obtain ⟨hsel, _, hadv⟩ := wtStep_eq h
  subst hadv
  intro x
  constructor
  · intro hx
    obtain ⟨s, hs, r, hr, hk⟩ := mem_allKeys.mp hx
    cases hc : s.1 with
    | none =>
      have hrest := (hInv s hs).2.2 hc
      have hsl : srcList s = [] := by simp [srcList, hc, hrest]
      rw [hsl] at hr
      cases hr
    | some r0 =>
      have hsl : srcList s = r0 :: s.2 := by simp [srcList, hc]
      by_cases he : rkey r0 = mk
      · rw [hsl] at hr
        rcases List.mem_cons.mp hr with rfl | hr'
        · exact Or.inl (by rw [← hk, he])
        · refine Or.inr (mem_allKeys.mpr ⟨advanceOne mk s, List.mem_map_of_mem _ hs, r, ?_, hk⟩)
          rw [advanceOne_hit hc he, srcList_headTail]
          exact hr'
      · refine Or.inr (mem_allKeys.mpr ⟨advanceOne mk s, List.mem_map_of_mem _ hs, r, ?_, hk⟩)
        rw [advanceOne_miss hc he]
        exact hr
  · intro hx
    rcases hx with rfl | hx
    · obtain ⟨s, hs, r, hsr, hk⟩ := mem_curKeys.mp (selectKey_some_mem hsel)
      exact mem_allKeys.mpr ⟨s, hs, r, cursor_mem_srcList hsr, hk⟩
    · obtain ⟨s', hs', r, hr, hk⟩ := mem_allKeys.mp hx
      obtain ⟨s, hs, hss⟩ := List.mem_map.mp hs'
      refine mem_allKeys.mpr ⟨s, hs, r, ?_, hk⟩
      exact srcList_advanceOne_subset mk s r (hss ▸ hr)

theorem step_preserves {prev : Option Key} {srcs srcs' : List Src}
    {row : List (Option Record)} {mk : Key}
    (hInv : WInv prev srcs) (h : wtStep prev srcs = some (row, mk, srcs')) :
    prevLt prev mk ∧ WInv (some mk) srcs' := by
  obtain ⟨hsel, _, hadv⟩ := wtStep_eq h
  constructor
  · exact curKeys_prevLt hInv mk (selectKey_some_mem hsel)
  · subst hadv
    intro s' hs'
    obtain ⟨s, hs, hss⟩ := List.mem_map.mp hs'
    exact hss ▸ advanceOne_srcInv hsel hInv hs

/-- The previously emitted key as a (zero- or one-element) prefix, to state
that the emitted keys ascend strictly from it. -/
def optKeyList : Option Key → List Key
  | none => []
  | some p => [p]

theorem wtAux_spec (fuel : Nat) :
    ∀ (prev : Option Key) (srcs : List Src),
    totalCount srcs ≤ fuel → WInv prev srcs →
    List.Chain' (fun a b => keyLtB a b = true)
      (optKeyList prev ++ (wtAux fuel prev srcs).map Prod.snd) ∧
    (∀ x, x ∈ (wtAux fuel prev srcs).map Prod.snd ↔ x ∈ allKeys srcs) := by
  induction fuel with
  | zero =>
    intro prev srcs hle hInv
    have hempty : allKeys srcs = [] := allKeys_nil_of_count_zero (by omega)
    constructor
    · cases prev <;> simp [wtAux, optKeyList]
    · intro x
      simp [wtAux, hempty]
  | succ n ih =>
    intro prev srcs hle hInv
    simp only [wtAux]
    cases hs : wtStep prev srcs with
    | none =>
      have hcur : curKeys srcs = [] := wtStep_eq_none.mp hs
      have hempty : allKeys srcs = [] := allKeys_nil_of_curKeys_nil hcur hInv
      constructor
      · cases prev <;> simp [optKeyList]
      · intro x
        simp [hempty]
    | some triple =>
      obtain ⟨row, mk, srcs'⟩ := triple
      obtain ⟨hplt, hInv'⟩ := step_preserves hInv hs
      have hcount := step_count_lt hs
      have hkeys := step_keys_iff hInv hs
      have ihs := ih (some mk) srcs' (by omega) hInv'
      constructor
      · have hchain := ihs.1
        simp only [optKeyList, List.singleton_append] at hchain
        cases hprev : prev with
        | none =>
          simp only [optKeyList, List.nil_append, List.map_cons]
          exact hchain
        | some p =>
          simp only [optKeyList, List.singleton_append, List.map_cons]
          refine List.chain'_cons.mpr ⟨?_, hchain⟩
          have := hplt
          rw [hprev] at this
          exact this
      · intro x
        simp only [List.map_cons, List.mem_cons]
        rw [hkeys x]
        exact or_congr_right (ihs.2 x)

/-- Claim C3: over sources each strictly ascending by `(chrom, gene, pos)`,
`walk_together` emits pairwise-distinct keys covering exactly the distinct
keys occurring across all sources, so the number of emitted rows equals the
number of distinct keys (not the sum of the per-source record counts). -/
theorem walk_rows_eq_distinct_keys (readers : List (List Record))
    (hsorted : ∀ l ∈ readers, l.Chain' (fun a b => keyLtB (rkey a) (rkey b) = true)) :
    ((wtRun readers).map Prod.snd).Nodup ∧
    (∀ x : Key, x ∈ (wtRun readers).map Prod.snd ↔ x ∈ keysOfReaders readers) ∧
    (walk_together readers).length = (keysOfReaders readers).toFinset.card := by
  have hInv0 : WInv none (initSrcs readers) := by
    intro s hs
    obtain ⟨l, hl, hls⟩ := List.mem_map.mp hs
    refine ⟨?_, fun r _ => trivial, ?_⟩
    · rw [← hls, srcList_headTail]
      exact (@List.chain'_iff_pairwise Record (fun a b => keyLtB (rkey a) (rkey b) = true)
        ⟨fun a b c hab hbc => keyLtB_trans hab hbc⟩ l).mp (hsorted l hl)
    · intro hnone
      rw [← hls] at hnone ⊢
      cases l with
      | nil => rfl
      | cons a t => simp at hnone
  have hspec := wtAux_spec (totalCount (initSrcs readers)) none (initSrcs readers)
    (le_refl _) hInv0
  have hchain : List.Chain' (fun a b => keyLtB a b = true)
      ((wtRun readers).map Prod.snd) := by
    have := hspec.1
    simpa [optKeyList, wtRun] using this
  have hpairwise : ((wtRun readers).map Prod.snd).Pairwise
      (fun a b => keyLtB a b = true) :=
    (@List.chain'_iff_pairwise Key (fun a b => keyLtB a b = true)
      ⟨fun a b c hab hbc => keyLtB_trans hab hbc⟩ ((wtRun readers).map Prod.snd)).mp hchain
  have hnodup : ((wtRun readers).map Prod.snd).Nodup := by
    refine hpairwise.imp ?_
    intro a b hab
    intro he
    rw [he, keyLtB_irrefl] at hab
    exact Bool.noConfusion hab
  have hmem : ∀ x : Key, x ∈ (wtRun readers).map Prod.snd ↔ x ∈ keysOfReaders readers := by
    intro x
    rw [← allKeys_init readers]
    exact hspec.2 x
  refine ⟨hnodup, hmem, ?_⟩
  have hlen1 : (walk_together readers).length = ((wtRun readers).map Prod.snd).length := by
    simp [walk_together]
  have hfin : ((wtRun readers).map Prod.snd).toFinset = (keysOfReaders readers).toFinset := by
    apply Finset.ext
    intro a
    rw [List.mem_toFinset, List.mem_toFinset]
    exact hmem a
  rw [hlen1, ← List.toFinset_card_of_nodup hnodup, hfin]

/-- Witness for C3 at the contig-completion scenario: three rows for the
three distinct keys of the two sorted sources. -/
theorem walk_rows_eq_distinct_keys_witness :
    (∀ l ∈ [[recA1, recA2], [recB1]],
      l.Chain' (fun a b => keyLtB (rkey a) (rkey b) = true)) ∧
    ((wtRun [[recA1, recA2], [recB1]]).map Prod.snd).Nodup ∧
    (walk_together [[recA1, recA2], [recB1]]).length =
      (keysOfReaders [[recA1, recA2], [recB1]]).toFinset.card := by
  have hs : ∀ l ∈ [[recA1, recA2], [recB1]],
      l.Chain' (fun a b => keyLtB (rkey a) (rkey b) = true) := by
    intro l hl
    rcases List.mem_cons.mp hl with rfl | hl'
    · exact List.chain'_cons.mpr ⟨by decide, List.chain'_singleton _⟩
    · rcases List.mem_cons.mp hl' with rfl | h0
      · exact List.chain'_singleton _
      · cases h0
  exact ⟨hs, (walk_rows_eq_distinct_keys _ hs).1,
    (walk_rows_eq_distinct_keys _ hs).2.2⟩
